import Mathlib

/-!
Verification development for the webpage-to-PDF job queue service.

The Python source is shallowly embedded: URLs are lists of characters,
`urllib.parse` functions are modelled as pure list functions, and the
SQLite-backed queue is modelled as an explicit state (`DB`) transformed by the
queue operations.  External effects (DNS resolution, the public-suffix
dataset, uuid generation, the wall clock) are passed in as explicit
parameters, so every definition is executable.
-/

namespace AW

/-! ### Characters: model of str.lower on ASCII -/

/-- ASCII uppercase letter test. -/
def isUpperA (c : Char) : Bool := decide (65 ≤ c.toNat ∧ c.toNat ≤ 90)

/-- ASCII lowercase letter test. -/
def isLowerA (c : Char) : Bool := decide (97 ≤ c.toNat ∧ c.toNat ≤ 122)

/-- ASCII letter test. -/
def isAlphaA (c : Char) : Bool := isUpperA c || isLowerA c

/-- ASCII digit test. -/
def isDigitA (c : Char) : Bool := decide (48 ≤ c.toNat ∧ c.toNat ≤ 57)

/-- Model of str.lower for a single character (ASCII range). -/
def lowerChar (c : Char) : Char :=
  if isUpperA c then Char.ofNat (c.toNat + 32) else c

/-- Model of str.lower for a whole string (as a character list). -/
def lowerL (l : List Char) : List Char := l.map lowerChar

/-- Characters permitted in a URL scheme (urllib scheme_chars). -/
def schemeCharA (c : Char) : Bool :=
  isAlphaA c || isDigitA c || decide (c = '+') || decide (c = '-') || decide (c = '.')

/-! ### List splitting primitives used by the urllib model -/

/-- Split at the first occurrence of c: the prefix before it and, when c
occurs, the suffix after it. -/
def splitFirst (c : Char) : List Char → List Char × Option (List Char)
  | [] => ([], none)
  | x :: xs =>
    if x = c then ([], some xs)
    else
      let r := splitFirst c xs
      (x :: r.1, r.2)

/-- Take until the first character from ds; the delimiter stays at the head of
the second component. -/
def takeUntil (ds : List Char) : List Char → List Char × List Char
  | [] => ([], [])
  | x :: xs =>
    if x ∈ ds then ([], x :: xs)
    else
      let r := takeUntil ds xs
      (x :: r.1, r.2)

/-- Split into all segments separated by c. -/
def splitAll (c : Char) : List Char → List (List Char)
  | [] => [[]]
  | x :: xs =>
    let r := splitAll c xs
    if x = c then [] :: r
    else
      match r with
      | [] => [[x]]
      | a :: rest => (x :: a) :: rest

/-! ### Model of urllib.parse -/

/-- The six components returned by urllib.parse.urlparse. -/
structure UrlParts where
  scheme : List Char
  netloc : List Char
  path : List Char
  params : List Char
  query : List Char
  fragment : List Char
deriving DecidableEq

/-- A valid scheme prefix: nonempty, leading ASCII letter, scheme chars only. -/
def validScheme (l : List Char) : Bool :=
  match l with
  | [] => false
  | c :: _ => isAlphaA c && l.all schemeCharA

/-- The scheme-separating stage of urlsplit: a valid scheme prefix before the
first ':' is split off and lowercased, otherwise the input is untouched. -/
def schemeSplit (rest : List Char) : List Char × List Char :=
  match splitFirst ':' rest with
  | (pre, some post) => if validScheme pre then (lowerL pre, post) else ([], rest)
  | (_, none) => ([], rest)

/-- The netloc-separating stage of urlsplit: after "//" the netloc runs up to
the first of '/', '?' or '#'. -/
def netlocSplit (rest2 : List Char) : List Char × List Char :=
  if rest2.take 2 = ['/', '/'] then takeUntil ['/', '?', '#'] (rest2.drop 2)
  else ([], rest2)

/-- Model of urllib.parse.urlsplit (fragment, scheme, netloc and query are
separated; params is left empty). -/
def urlsplitL (l : List Char) : UrlParts :=
  let f := splitFirst '#' l
  let sr := schemeSplit f.1
  let nr := netlocSplit sr.2
  let pq := splitFirst '?' nr.2
  { scheme := sr.1, netloc := nr.1, path := pq.1, params := [],
    query := pq.2.getD [], fragment := f.2.getD [] }

/-- Schemes for which urlparse separates a params component (urllib
uses_params). -/
def usesParamsList : List (List Char) :=
  ["".data, "ftp".data, "hdl".data, "prospero".data, "http".data, "imap".data,
   "https".data, "shttp".data, "rtsp".data, "rtspu".data, "sip".data,
   "sips".data, "snews".data, "tel".data, "telnet".data, "wais".data,
   "sftp".data]

def usesParams (s : List Char) : Bool := usesParamsList.contains s

/-- The final '/'-free segment of a path. -/
def lastSeg (p : List Char) : List Char :=
  (p.reverse.takeWhile (fun c => decide (c ≠ '/'))).reverse

/-- Everything before the final '/'-free segment of a path. -/
def lastSegPre (p : List Char) : List Char :=
  (p.reverse.dropWhile (fun c => decide (c ≠ '/'))).reverse

/-- Model of urllib.parse._splitparams: split at the first ';' occurring in
the last path segment. -/
def splitParams (p : List Char) : List Char × List Char :=
  match splitFirst ';' (lastSeg p) with
  | (_, none) => (p, [])
  | (a, some b) => (lastSegPre p ++ a, b)

/-- Model of urllib.parse.urlparse. -/
def urlparseL (l : List Char) : UrlParts :=
  let u := urlsplitL l
  if usesParams u.scheme && decide (';' ∈ u.path) then
    let pp := splitParams u.path
    { u with path := pp.1, params := pp.2 }
  else u

/-- path and params joined back together, as in urlunparse. -/
def combineParams (p pr : List Char) : List Char :=
  if pr = [] then p else p ++ ';' :: pr

/-- The '/'-prepending step of urlunsplit for a nonempty relative path. -/
def prepSeg (u : List Char) : List Char :=
  if u ≠ [] ∧ u.head? ≠ some '/' then '/' :: u else u

/-- Model of urllib.parse.urlunparse. -/
def urlunparseL (s n p pr q f : List Char) : List Char :=
  let u1 := combineParams p pr
  let u2 :=
    if n ≠ [] ∨ (u1 ≠ [] ∧ u1.take 2 = ['/', '/']) then
      '/' :: '/' :: (n ++ prepSeg u1)
    else u1
  let u3 := if s = [] then u2 else s ++ ':' :: u2
  let u4 := if q = [] then u3 else u3 ++ '?' :: q
  if f = [] then u4 else u4 ++ '#' :: f

/-! ### Model of app.security.url_validator -/

/-- Drop every trailing '/' (Python str.rstrip with one character). -/
def rstripSlash (l : List Char) : List Char :=
  (l.reverse.dropWhile (fun c => decide (c = '/'))).reverse

/-- The path transformation of normalize_url: strip all trailing slashes
unless the path is exactly "/". -/
def stripPath (p : List Char) : List Char :=
  if p = ['/'] then ['/'] else rstripSlash p

/-- Model of normalize_url on character lists: lowercase, parse, strip
trailing slashes from the path, drop the fragment, recompose. -/
def normalizeL (l : List Char) : List Char :=
  let p := urlparseL (lowerL l)
  urlunparseL p.scheme p.netloc (stripPath p.path) p.params p.query []

/-- Model of app.security.url_validator.normalize_url. -/
def normalize_url (s : String) : String := String.mk (normalizeL s.data)

/-- Boolean form of validate_url_format: nonempty, http/https scheme,
nonempty netloc. -/
def validFormatL (l : List Char) : Bool :=
  if l = [] then false
  else
    let p := urlparseL l
    (p.scheme = "http".data || p.scheme = "https".data) && !(p.netloc = [])

/-- Model of app.security.url_validator.validate_url_format. -/
def validate_url_format (url : String) : Except String Unit :=
  if url.data = [] then Except.error "URL must be a non-empty string"
  else
    let p := urlparseL url.data
    if p.scheme = "http".data ∨ p.scheme = "https".data then
      if p.netloc = [] then Except.error "URL must have a valid domain"
      else Except.ok ()
    else Except.error "URL must use http or https scheme"

/-- Model of the SplitResult.hostname property applied to a netloc: the part
after the last '@', inside brackets or before the port, lowercased; none when
empty. -/
def hostnameOfNetloc (n : List Char) : Option (List Char) :=
  let afterAt := (n.reverse.takeWhile (fun c => decide (c ≠ '@'))).reverse
  let h :=
    if '[' ∈ afterAt then
      (splitFirst ']' ((splitFirst '[' afterAt).2.getD [])).1
    else (splitFirst ':' afterAt).1
  if h = [] then none else some (lowerL h)

/-- urlparse(url).hostname. -/
def hostnameL (l : List Char) : Option (List Char) :=
  hostnameOfNetloc (urlparseL l).netloc

/-- Numeric value of a decimal digit list. -/
def natOfDigits (l : List Char) : Nat := l.foldl (fun a c => a * 10 + (c.toNat - 48)) 0

/-- One dotted-quad octet as accepted by Python ipaddress: 1-3 digits, no
leading zero, at most 255. -/
def validOctet (l : List Char) : Bool :=
  (!l.isEmpty) && l.all isDigitA && decide (l.length ≤ 3) &&
    (decide (l.length = 1) || decide (l.headD '0' ≠ '0')) &&
    decide (natOfDigits l ≤ 255)

/-- Model of IPv4 textual-address parsing (ipaddress.IPv4Address). -/
def parseIPv4 (l : List Char) : Option (Nat × Nat × Nat × Nat) :=
  match splitAll '.' l with
  | [a, b, c, d] =>
    if validOctet a && validOctet b && validOctet c && validOctet d then
      some (natOfDigits a, natOfDigits b, natOfDigits c, natOfDigits d)
    else none
  | _ => none

/-- ASCII hex digit test. -/
def isHexDigitA (c : Char) : Bool :=
  isDigitA c || decide (97 ≤ c.toNat ∧ c.toNat ≤ 102) ||
    decide (65 ≤ c.toNat ∧ c.toNat ≤ 70)

/-- Numeric value of a hex digit list. -/
def natOfHex (l : List Char) : Nat :=
  l.foldl (fun a c =>
    a * 16 +
      (if isDigitA c then c.toNat - 48
       else if decide (97 ≤ c.toNat) then c.toNat - 87
       else c.toNat - 55)) 0

/-- One IPv6 hextet: 1-4 hex digits. -/
def validHexGroup (l : List Char) : Bool :=
  (!l.isEmpty) && decide (l.length ≤ 4) && l.all isHexDigitA

/-- Split at the first occurrence of "::". -/
def splitDoubleColon : List Char → Option (List Char × List Char)
  | ':' :: ':' :: rest => some ([], rest)
  | x :: xs =>
    match splitDoubleColon xs with
    | some (a, b) => some (x :: a, b)
    | none => none
  | [] => none

/-- Hextet groups of one side of an IPv6 address; an empty side has no
groups. -/
def hexGroups (l : List Char) : Option (List Nat) :=
  if l = [] then some []
  else
    let gs := splitAll ':' l
    if gs.all validHexGroup then some (gs.map natOfHex) else none

/-- 128-bit value of a hextet list. -/
def ipv6Val (gs : List Nat) : Nat := gs.foldl (fun a g => a * 65536 + g) 0

/-- Model of IPv6 textual-address parsing (ipaddress.IPv6Address) for
hex-group forms; IPv4-embedded and scoped forms are treated as unparseable. -/
def parseIPv6 (l : List Char) : Option Nat :=
  match splitDoubleColon l with
  | some (hi, lo) =>
    if (splitDoubleColon lo).isSome then none
    else
      match hexGroups hi, hexGroups lo with
      | some gh, some gl =>
        if gh.length + gl.length ≤ 7 then
          some (ipv6Val (gh ++ List.replicate (8 - gh.length - gl.length) 0 ++ gl))
        else none
      | _, _ => none
  | none =>
    match hexGroups l with
    | some gs => if gs.length = 8 then some (ipv6Val gs) else none
    | none => none

/-- Model of is_private_ip: true when the string is an IP literal inside one
of PRIVATE_IP_RANGES, false otherwise (non-literals resolve to false). -/
def is_private_ip (h : List Char) : Bool :=
  match parseIPv4 h with
  | some (a, b, _, _) =>
    decide (a = 10) || (decide (a = 172) && decide (16 ≤ b ∧ b ≤ 31)) ||
      (decide (a = 192) && decide (b = 168)) || decide (a = 127) ||
      (decide (a = 169) && decide (b = 254))
  | none =>
    match parseIPv6 h with
    | some v =>
      decide (v = 1) || decide (v / 2 ^ 121 = 126) || decide (v / 2 ^ 118 = 1018)
    | none => false

def METADATA_ENDPOINTS : List (List Char) :=
  ["169.254.169.254".data, "metadata.google.internal".data]

/-- Model of is_metadata_endpoint. -/
def is_metadata_endpoint (h : List Char) : Bool :=
  METADATA_ENDPOINTS.contains (lowerL h)

/-- Model of validate_ssrf.  The DNS-resolution loop in the source raises
SSRFError inside a try block whose final generic exception handler executes
pass, so the raised rejection is swallowed and that check never fails the
validation; the resolver result is computed and discarded here, matching the
source behaviour.  resolver abstracts socket.getaddrinfo. -/
def validate_ssrf (resolver : List Char → List (List Char)) (url : String) :
    Except String Unit :=
  match hostnameL url.data with
  | none => Except.error "Invalid hostname"
  | some h =>
    if is_metadata_endpoint h then
      Except.error "Access to metadata endpoints is blocked"
    else if is_private_ip h then
      Except.error "Access to private IP ranges is blocked"
    else if lowerL h = "localhost".data ∨ lowerL h = "localhost.localdomain".data then
      Except.error "Access to localhost is blocked"
    else
      let _resolvedPrivate := (resolver h).any is_private_ip
      Except.ok ()

/-- Model of app.utils.domain.extract_main_domain; the public-suffix dataset
is abstracted as psl (privatesuffix), with fallback to the full hostname. -/
def extract_main_domain (psl : List Char → Option (List Char)) (url : String) :
    Except String (List Char) :=
  match hostnameL url.data with
  | none => Except.error "Cannot extract domain from URL"
  | some h => Except.ok (lowerL ((psl h).getD h))

/-! ### Model of the persistent store (app.models) -/

inductive JobStatus where
  | queued
  | waiting_domain_lock
  | running
  | succeeded
  | failed
deriving DecidableEq

/-- One row of the jobs table. -/
structure Job where
  job_id : Nat
  normalized_url : List Char
  main_domain : List Char
  status : JobStatus
  attempts : Nat
  created_at : Int
  started_at : Option Int
  finished_at : Option Int
  error_code : Option String
  error_message : Option String
  render_mode : String
  navigation_timeout_seconds : Nat
  job_timeout_seconds : Nat
  max_domain_wait_seconds : Nat
  max_retries : Nat
  deduplicated : Bool
  submission_date : List Char
  metadata_json : Option String
deriving DecidableEq

/-- One row of the domain_locks table. -/
structure DomainLock where
  main_domain : List Char
  job_id : Nat
  locked_at : Int
  max_wait_seconds : Nat
deriving DecidableEq

/-- The whole store.  uuid4 generation is modelled by the deterministic
counter nextId. -/
structure DB where
  jobs : List Job
  locks : List DomainLock
  nextId : Nat
deriving DecidableEq

def emptyDB : DB := { jobs := [], locks := [], nextId := 0 }

/-! ### Settings defaults (app.config) -/

def default_render_mode : String := "print_to_pdf"
def default_navigation_timeout_seconds : Nat := 45
def default_job_timeout_seconds : Nat := 120
def default_max_domain_wait_seconds : Nat := 600
def default_max_retries : Nat := 2

/-- Python `x or default` for an optional integer: None and 0 are falsy. -/
def pyOrNat (x : Option Nat) (d : Nat) : Nat :=
  match x with
  | none => d
  | some v => if v = 0 then d else v

/-- Python `x or default` for an optional string: None and "" are falsy. -/
def pyOrStr (x : Option String) (d : String) : String :=
  match x with
  | none => d
  | some s => if s = "" then d else s

/-! ### Model of app.queue.service.QueueService -/

/-- Model of QueueService.create_job.  now is the UTC timestamp of the call
and today its calendar date; the IntegrityError re-select branch of the
source is unreachable in this sequential model and is omitted. -/
def create_job (resolver : List Char → List (List Char))
    (psl : List Char → Option (List Char)) (db : DB) (url : String)
    (render_mode : Option String) (navigation_timeout_seconds : Option Nat)
    (job_timeout_seconds : Option Nat) (max_domain_wait_seconds : Option Nat)
    (max_retries : Option Nat) (metadata_json : Option String)
    (now : Int) (today : List Char) : Except String (Job × Bool × DB) :=
  match validate_url_format url with
  | Except.error e => Except.error e
  | Except.ok _ =>
    match validate_ssrf resolver url with
    | Except.error e => Except.error e
    | Except.ok _ =>
      match extract_main_domain psl url with
      | Except.error e => Except.error e
      | Except.ok mainDomain =>
        let normalized := normalizeL url.data
        match db.jobs.find? (fun j =>
            decide (j.normalized_url = normalized ∧ j.submission_date = today)) with
        | some existing => Except.ok (existing, true, db)
        | none =>
          let job : Job :=
            { job_id := db.nextId
              normalized_url := normalized
              main_domain := mainDomain
              status := JobStatus.queued
              attempts := 0
              created_at := now
              started_at := none
              finished_at := none
              error_code := none
              error_message := none
              render_mode := pyOrStr render_mode default_render_mode
              navigation_timeout_seconds :=
                pyOrNat navigation_timeout_seconds default_navigation_timeout_seconds
              job_timeout_seconds :=
                pyOrNat job_timeout_seconds default_job_timeout_seconds
              max_domain_wait_seconds :=
                pyOrNat max_domain_wait_seconds default_max_domain_wait_seconds
              max_retries := pyOrNat max_retries default_max_retries
              deduplicated := false
              submission_date := today
              metadata_json := metadata_json }
          Except.ok (job, false,
            { jobs := db.jobs ++ [job], locks := db.locks, nextId := db.nextId + 1 })

/-- Model of QueueService.get_job. -/
def get_job (db : DB) (id : Nat) : Option Job :=
  db.jobs.find? (fun j => decide (j.job_id = id))

/-- Apply an update to every row whose job_id matches. -/
def updateJob (db : DB) (id : Nat) (f : Job → Job) : DB :=
  { db with jobs := db.jobs.map (fun j => if j.job_id = id then f j else j) }

/-- SELECT ... ORDER BY created_at LIMIT 1 over rows satisfying p; first in
insertion order among equal timestamps. -/
def selectOldest (p : Job → Bool) (jobs : List Job) : Option Job :=
  jobs.foldl (fun acc j =>
    if p j then
      match acc with
      | none => some j
      | some b => if j.created_at < b.created_at then some j else acc
    else acc) none

/-- The candidate row of claim_next_job: oldest QUEUED, else oldest
WAITING_DOMAIN_LOCK. -/
def selectCandidate (db : DB) : Option Job :=
  match selectOldest (fun j => decide (j.status = JobStatus.queued)) db.jobs with
  | some j => some j
  | none =>
    selectOldest (fun j => decide (j.status = JobStatus.waiting_domain_lock)) db.jobs

/-- SELECT from domain_locks by main_domain. -/
def findLock (db : DB) (d : List Char) : Option DomainLock :=
  db.locks.find? (fun l => decide (l.main_domain = d))

/-- The error message written on a domain-wait timeout. -/
def domainWaitMessage (n : Nat) : String :=
  "Exceeded max domain wait time: " ++ toString n ++ "s"

/-- Model of QueueService.claim_next_job. -/
def claim_next_job (db : DB) (now : Int) : Option Job × DB :=
  match selectCandidate db with
  | none => (none, db)
  | some job =>
    match findLock db job.main_domain with
    | some _ =>
      if now - job.created_at > (job.max_domain_wait_seconds : Int) then
        (none, updateJob db job.job_id (fun j =>
          { j with status := JobStatus.failed,
                   error_code := some "DOMAIN_WAIT_TIMEOUT",
                   error_message := some (domainWaitMessage j.max_domain_wait_seconds),
                   finished_at := some now }))
      else
        if job.status ≠ JobStatus.waiting_domain_lock then
          (none, updateJob db job.job_id (fun j =>
            { j with status := JobStatus.waiting_domain_lock }))
        else (none, db)
    | none =>
      let claimed : Job :=
        { job with status := JobStatus.running, started_at := some now,
                   attempts := job.attempts + 1 }
      let newLock : DomainLock :=
        { main_domain := job.main_domain, job_id := job.job_id, locked_at := now,
          max_wait_seconds := job.max_domain_wait_seconds }
      (some claimed,
       { jobs := (updateJob db job.job_id (fun j =>
           { j with status := JobStatus.running, started_at := some now,
                    attempts := j.attempts + 1 })).jobs,
         locks := db.locks ++ [newLock], nextId := db.nextId })

/-- Model of QueueService.complete_job.  The source checks only that the job
exists; it does not require RUNNING status. -/
def complete_job (db : DB) (id : Nat) (success : Bool)
    (error_code error_message : Option String) (now : Int) : DB :=
  match get_job db id with
  | none => db
  | some job =>
    let db1 := updateJob db id (fun j =>
      if success then
        { j with status := JobStatus.succeeded, error_code := none,
                 error_message := none, finished_at := some now }
      else
        { j with status := JobStatus.failed, error_code := error_code,
                 error_message := error_message, finished_at := some now })
    { db1 with
      locks := db1.locks.filter (fun l => decide (l.main_domain ≠ job.main_domain)) }

/-- Model of QueueService.requeue_job.  The source checks only that the job
exists; it does not require RUNNING status. -/
def requeue_job (db : DB) (id : Nat) : DB :=
  match get_job db id with
  | none => db
  | some job =>
    let db1 := updateJob db id (fun j =>
      { j with status := JobStatus.queued, started_at := none })
    { db1 with
      locks := db1.locks.filter (fun l => decide (l.main_domain ≠ job.main_domain)) }

/-! ### Model of the worker retry decision (app.worker.main) -/

def non_retryable : List String :=
  ["INVALID_URL", "SSRF_BLOCKED", "HTTP_4XX", "CAPTCHA_DETECTED",
   "DOMAIN_WAIT_TIMEOUT"]

/-- Model of Worker.should_retry. -/
def should_retry (job : Job) (error_code : Option String) : Bool :=
  match error_code with
  | some c =>
    if non_retryable.contains c then false
    else decide (job.attempts < job.max_retries)
  | none => decide (job.attempts < job.max_retries)

/-- Model of the completion branch of Worker.run after a processed job. -/
def worker_finish (db : DB) (job : Job) (success : Bool)
    (error_code error_message : Option String) (now : Int) : DB :=
  if success then complete_job db job.job_id true none none now
  else if should_retry job error_code then requeue_job db job.job_id
  else
    complete_job db job.job_id false
      (some (pyOrStr error_code "RENDER_FAILED"))
      (some (pyOrStr error_message "Unknown error")) now

/-! ### Invariants and scenario helpers -/

/-- The spec invariant: a job is RUNNING iff exactly one DomainLock row
carries its job_id. -/
def lockInvariant (db : DB) : Prop :=
  ∀ j ∈ db.jobs,
    (j.status = JobStatus.running ↔
      (db.locks.filter (fun l => decide (l.job_id = j.job_id))).length = 1)

instance (db : DB) : Decidable (lockInvariant db) := by
  unfold lockInvariant; infer_instance

/-- Submit and keep the resulting store, ignoring failures. -/
def submitD (resolver : List Char → List (List Char))
    (psl : List Char → Option (List Char)) (db : DB) (url : String)
    (now : Int) (today : List Char) : DB :=
  match create_job resolver psl db url none none none none none none now today with
  | Except.ok (_, _, db2) => db2
  | Except.error _ => db

/-- A resolver that returns no addresses (DNS failure; swallowed). -/
def noResolver : List Char → List (List Char) := fun _ => []

/-- A public-suffix dataset with no match: falls back to the hostname. -/
def noPsl : List Char → Option (List Char) := fun _ => none

def today0 : List Char := "2026-10-12".data

/-! ### Concrete scenario data used by the claim theorems -/

/-- A job that has just finished its second run with max_retries = 2. -/
def jobTwoAttempts : Job :=
  { job_id := 0, normalized_url := [], main_domain := [],
    status := JobStatus.running, attempts := 2, created_at := 0,
    started_at := some 0, finished_at := none, error_code := none,
    error_message := none, render_mode := "print_to_pdf",
    navigation_timeout_seconds := 45, job_timeout_seconds := 120,
    max_domain_wait_seconds := 600, max_retries := 2, deduplicated := false,
    submission_date := [], metadata_json := none }

/-- A job that has just finished its first run with max_retries = 2. -/
def jobOneAttempt : Job := { jobTwoAttempts with attempts := 1 }

/-- Scenario: one job submitted, claimed, and completed successfully. -/
def dbB1 : DB := submitD noResolver noPsl emptyDB "http://example.com/a" 0 today0
def dbB2 : DB := (claim_next_job dbB1 1).2
def dbB3 : DB := complete_job dbB2 0 true none none 2

/-- Scenario: two same-domain jobs; the first submitted, claimed and
completed, then the second claimed, then complete is called again on the
first (already SUCCEEDED) job. -/
def dbA1 : DB := submitD noResolver noPsl emptyDB "http://a.com/x" 0 today0
def dbA2 : DB := submitD noResolver noPsl dbA1 "http://a.com/y" 1 today0
def dbA3 : DB := (claim_next_job dbA2 2).2
def dbA4 : DB := complete_job dbA3 0 true none none 3
def dbA5 : DB := (claim_next_job dbA4 4).2

/-- A DNS resolver that maps internal.example to the private 10.0.0.1. -/
def resolverC6 : List Char → List (List Char) :=
  fun h => if h = "internal.example".data then ["10.0.0.1".data] else []

/-- Store after submitting a URL whose hostname resolves to a private IP. -/
def dbC6 : DB := submitD resolverC6 noPsl emptyDB "http://internal.example/" 0 today0

/-- The row created by submitting https://example.com/test at time 0. -/
def jobW4 : Job :=
  { job_id := 0, normalized_url := "https://example.com/test".data,
    main_domain := "example.com".data, status := JobStatus.queued, attempts := 0,
    created_at := 0, started_at := none, finished_at := none, error_code := none,
    error_message := none, render_mode := "print_to_pdf",
    navigation_timeout_seconds := 45, job_timeout_seconds := 120,
    max_domain_wait_seconds := 600, max_retries := 2, deduplicated := false,
    submission_date := today0, metadata_json := none }

/-- The store holding exactly jobW4. -/
def dbW4 : DB := { jobs := [jobW4], locks := [], nextId := 1 }

/-! ### Character lemmas -/

theorem char_toNat_ofNat (n : Nat) (h : n < 55296) : (Char.ofNat n).toNat = n := by
  have hv : n.isValidChar := Or.inl h
  simp [Char.ofNat, hv, Char.ofNatAux, Char.toNat, UInt32.toNat, BitVec.toNat_ofNatLt]

theorem char_toNat_inj {c d : Char} (h : c.toNat = d.toNat) : c = d :=
  Char.eq_of_val_eq (UInt32.ext h)

theorem isUpperA_iff {c : Char} : isUpperA c = true ↔ 65 ≤ c.toNat ∧ c.toNat ≤ 90 := by
  simp [isUpperA]

theorem lowerChar_toNat {c : Char} (hc : isUpperA c = true) :
    (lowerChar c).toNat = c.toNat + 32 := by
  have hb : c.toNat ≤ 90 := (isUpperA_iff.mp hc).2
  unfold lowerChar
  rw [if_pos hc]
  exact char_toNat_ofNat _ (by omega)

theorem lowerChar_eq_self {c : Char} (hc : isUpperA c = false) : lowerChar c = c := by
  unfold lowerChar
  rw [hc]
  simp

theorem isUpperA_lowerChar (c : Char) : isUpperA (lowerChar c) = false := by
  cases hc : isUpperA c with
  | true =>
    have hn := lowerChar_toNat hc
    have hb := (isUpperA_iff.mp hc).1
    simp only [isUpperA, decide_eq_false_iff_not]
    omega
  | false =>
    rw [lowerChar_eq_self hc, hc]

theorem lowerChar_idem (c : Char) : lowerChar (lowerChar c) = lowerChar c :=
  lowerChar_eq_self (isUpperA_lowerChar c)

theorem lowerL_idem (l : List Char) : lowerL (lowerL l) = lowerL l := by
  unfold lowerL
  rw [List.map_map]
  exact List.map_congr_left (fun c _ => lowerChar_idem c)

/-- A character outside both ASCII letter ranges is moved by lowerChar from
nothing and to nothing: lowerChar c = d iff c = d. -/
theorem lowerChar_eq_iff {c d : Char} (hd1 : ¬(65 ≤ d.toNat ∧ d.toNat ≤ 90))
    (hd2 : ¬(97 ≤ d.toNat ∧ d.toNat ≤ 122)) : lowerChar c = d ↔ c = d := by
  constructor
  · intro h
    cases hc : isUpperA c with
    | true =>
      exfalso
      have hn := lowerChar_toNat hc
      have hb := isUpperA_iff.mp hc
      rw [h] at hn
      omega
    | false => rw [← lowerChar_eq_self hc]; exact h
  · intro h
    rw [h]
    exact lowerChar_eq_self (by simp only [isUpperA, decide_eq_false_iff_not]; exact hd1)

theorem isAlphaA_lowerChar (c : Char) : isAlphaA (lowerChar c) = isAlphaA c := by
  cases hc : isUpperA c with
  | true =>
    have hn := lowerChar_toNat hc
    have hb := isUpperA_iff.mp hc
    have h1 : isLowerA (lowerChar c) = true := by
      simp only [isLowerA, hn, decide_eq_true_eq]
      omega
    simp [isAlphaA, hc, h1, isUpperA_lowerChar]
  | false => rw [lowerChar_eq_self hc]

theorem isDigitA_lowerChar (c : Char) : isDigitA (lowerChar c) = isDigitA c := by
  cases hc : isUpperA c with
  | true =>
    have hn := lowerChar_toNat hc
    have hb := isUpperA_iff.mp hc
    simp only [isDigitA, hn, decide_eq_decide]
    omega
  | false => rw [lowerChar_eq_self hc]

theorem schemeCharA_lowerChar (c : Char) : schemeCharA (lowerChar c) = schemeCharA c := by
  have hplus : (lowerChar c = '+') = (c = '+') := by
    apply propext; exact lowerChar_eq_iff (by decide) (by decide)
  have hminus : (lowerChar c = '-') = (c = '-') := by
    apply propext; exact lowerChar_eq_iff (by decide) (by decide)
  have hdot : (lowerChar c = '.') = (c = '.') := by
    apply propext; exact lowerChar_eq_iff (by decide) (by decide)
  simp only [schemeCharA, isAlphaA_lowerChar, isDigitA_lowerChar, hplus, hminus, hdot]

theorem all_schemeCharA_lowerL (l : List Char) :
    (lowerL l).all schemeCharA = l.all schemeCharA := by
  induction l with
  | nil => rfl
  | cons c cs ih =>
    simp only [lowerL, List.map_cons, List.all_cons, schemeCharA_lowerChar] at ih ⊢
    rw [ih]

theorem validScheme_lowerL (l : List Char) : validScheme (lowerL l) = validScheme l := by
  cases l with
  | nil => rfl
  | cons c cs =>
    have h := all_schemeCharA_lowerL (c :: cs)
    simp only [validScheme, lowerL, List.map_cons, isAlphaA_lowerChar]
    simp only [lowerL, List.map_cons] at h
    rw [h]

/-! ### splitFirst lemmas -/

theorem sf_cons_self (c : Char) (l : List Char) : splitFirst c (c :: l) = ([], some l) := by
  simp [splitFirst]

theorem sf_cons_ne {x c : Char} (h : x ≠ c) (l : List Char) :
    splitFirst c (x :: l) = (x :: (splitFirst c l).1, (splitFirst c l).2) := by
  simp [splitFirst, h]

theorem sf_decomp (c : Char) (l : List Char) :
    l = (splitFirst c l).1 ++ ((splitFirst c l).2.elim [] (fun b => c :: b)) := by
  induction l with
  | nil => rfl
  | cons x xs ih =>
    by_cases hx : x = c
    · subst hx
      rw [sf_cons_self]
      rfl
    · rw [sf_cons_ne hx]
      simpa using ih

theorem sf_fst_not_mem (c : Char) (l : List Char) : c ∉ (splitFirst c l).1 := by
  induction l with
  | nil => simp [splitFirst]
  | cons x xs ih =>
    by_cases hx : x = c
    · subst hx; rw [sf_cons_self]; simp
    · rw [sf_cons_ne hx]
      simp only [List.mem_cons, not_or]
      exact ⟨fun h => hx h.symm, ih⟩

theorem sf_not_mem {c : Char} {l : List Char} (h : c ∉ l) : splitFirst c l = (l, none) := by
  induction l with
  | nil => rfl
  | cons x xs ih =>
    have hx : x ≠ c := fun e => h (e ▸ List.mem_cons_self x xs)
    rw [sf_cons_ne hx, ih (fun hm => h (List.mem_cons_of_mem x hm))]

theorem sf_mem_fst {x c : Char} {l : List Char} (h : x ∈ (splitFirst c l).1) : x ∈ l := by
  induction l with
  | nil => simp [splitFirst] at h
  | cons y ys ih =>
    by_cases hy : y = c
    · subst hy
      rw [sf_cons_self] at h
      simp at h
    · rw [sf_cons_ne hy] at h
      rcases List.mem_cons.mp h with h1 | h2
      · exact h1 ▸ List.mem_cons_self y ys
      · exact List.mem_cons_of_mem y (ih h2)

theorem sf_mem_snd {x c : Char} {l b : List Char} (hb : (splitFirst c l).2 = some b)
    (h : x ∈ b) : x ∈ l := by
  induction l with
  | nil => simp [splitFirst] at hb
  | cons y ys ih =>
    by_cases hy : y = c
    · subst hy
      rw [sf_cons_self] at hb
      cases hb
      exact List.mem_cons_of_mem y h
    · rw [sf_cons_ne hy] at hb
      exact List.mem_cons_of_mem y (ih hb)

theorem sf_append_left {c : Char} {a : List Char} (h : c ∉ a) (l : List Char) :
    splitFirst c (a ++ l) = (a ++ (splitFirst c l).1, (splitFirst c l).2) := by
  induction a with
  | nil => simp
  | cons x xs ih =>
    have hx : x ≠ c := fun e => h (e ▸ List.mem_cons_self x xs)
    rw [List.cons_append, sf_cons_ne hx, ih (fun hm => h (List.mem_cons_of_mem x hm))]
    rfl

theorem sf_map {c : Char} (f : Char → Char) (hf : ∀ x, f x = c ↔ x = c) (l : List Char) :
    splitFirst c (l.map f) =
      ((splitFirst c l).1.map f, ((splitFirst c l).2).map (fun b => b.map f)) := by
  induction l with
  | nil => rfl
  | cons x xs ih =>
    by_cases hx : x = c
    · subst hx
      have hfx : f x = x := (hf x).mpr rfl
      rw [List.map_cons, hfx, sf_cons_self, sf_cons_self]
      rfl
    · have hfx : f x ≠ c := fun e => hx ((hf x).mp e)
      rw [List.map_cons, sf_cons_ne hfx, sf_cons_ne hx, ih]
      rfl

/-! ### takeUntil lemmas -/

theorem tu_cons_mem {x : Char} {ds : List Char} (h : x ∈ ds) (l : List Char) :
    takeUntil ds (x :: l) = ([], x :: l) := by
  simp [takeUntil, h]

theorem tu_cons_not_mem {x : Char} {ds : List Char} (h : x ∉ ds) (l : List Char) :
    takeUntil ds (x :: l) = (x :: (takeUntil ds l).1, (takeUntil ds l).2) := by
  simp [takeUntil, h]

theorem tu_decomp (ds : List Char) (l : List Char) :
    l = (takeUntil ds l).1 ++ (takeUntil ds l).2 := by
  induction l with
  | nil => rfl
  | cons x xs ih =>
    by_cases hx : x ∈ ds
    · rw [tu_cons_mem hx]
      rfl
    · rw [tu_cons_not_mem hx]
      simpa using ih

theorem tu_fst_not_mem {x : Char} {ds l : List Char}
    (h : x ∈ (takeUntil ds l).1) : x ∉ ds := by
  induction l with
  | nil => simp [takeUntil] at h
  | cons y ys ih =>
    by_cases hy : y ∈ ds
    · rw [tu_cons_mem hy] at h
      simp at h
    · rw [tu_cons_not_mem hy] at h
      rcases List.mem_cons.mp h with h1 | h2
      · exact h1 ▸ hy
      · exact ih h2

theorem tu_snd_cases (ds l : List Char) :
    (takeUntil ds l).2 = [] ∨
      ∃ y t, (takeUntil ds l).2 = y :: t ∧ y ∈ ds := by
  induction l with
  | nil => exact Or.inl rfl
  | cons x xs ih =>
    by_cases hx : x ∈ ds
    · rw [tu_cons_mem hx]
      exact Or.inr ⟨x, xs, rfl, hx⟩
    · rw [tu_cons_not_mem hx]
      exact ih

theorem tu_append_left {ds : List Char} {a : List Char} (h : ∀ x ∈ a, x ∉ ds)
    (l : List Char) :
    takeUntil ds (a ++ l) = (a ++ (takeUntil ds l).1, (takeUntil ds l).2) := by
  induction a with
  | nil => simp
  | cons x xs ih =>
    rw [List.cons_append, tu_cons_not_mem (h x (List.mem_cons_self x xs)),
      ih (fun y hy => h y (List.mem_cons_of_mem x hy))]
    rfl

theorem tu_all_not_mem {ds l : List Char} (h : ∀ x ∈ l, x ∉ ds) :
    takeUntil ds l = (l, []) := by
  induction l with
  | nil => rfl
  | cons x xs ih =>
    rw [tu_cons_not_mem (h x (List.mem_cons_self x xs)),
      ih (fun y hy => h y (List.mem_cons_of_mem x hy))]

theorem tu_map {ds : List Char} (f : Char → Char) (hf : ∀ x, f x ∈ ds ↔ x ∈ ds)
    (l : List Char) :
    takeUntil ds (l.map f) = ((takeUntil ds l).1.map f, (takeUntil ds l).2.map f) := by
  induction l with
  | nil => rfl
  | cons x xs ih =>
    by_cases hx : x ∈ ds
    · rw [List.map_cons, tu_cons_mem ((hf x).mpr hx), tu_cons_mem hx]
      rfl
    · have hfx : f x ∉ ds := fun e => hx ((hf x).mp e)
      rw [List.map_cons, tu_cons_not_mem hfx, tu_cons_not_mem hx, ih]
      rfl

/-! ### dropWhile, rstripSlash and path-segment lemmas -/

theorem mem_dropWhile {p : Char → Bool} {l : List Char} {x : Char}
    (h : x ∈ l.dropWhile p) : x ∈ l :=
  (List.dropWhile_sublist p).mem h

theorem dropWhile_head_not (p : Char → Bool) (l : List Char) :
    l.dropWhile p = [] ∨ ∃ y t, l.dropWhile p = y :: t ∧ p y = false := by
  induction l with
  | nil => exact Or.inl rfl
  | cons x xs ih =>
    by_cases hx : p x
    · simp only [List.dropWhile, hx]
      exact ih
    · simp only [List.dropWhile, hx]
      exact Or.inr ⟨x, xs, rfl, by simp [hx]⟩

theorem dropWhile_idem (p : Char → Bool) (l : List Char) :
    (l.dropWhile p).dropWhile p = l.dropWhile p := by
  rcases dropWhile_head_not p l with h | ⟨y, t, h, hy⟩
  · rw [h]
    rfl
  · rw [h]
    simp [List.dropWhile, hy]

theorem rs_mem {x : Char} {l : List Char} (h : x ∈ rstripSlash l) : x ∈ l := by
  unfold rstripSlash at h
  rw [List.mem_reverse] at h
  exact List.mem_reverse.mp (mem_dropWhile h)

theorem rs_idem (l : List Char) : rstripSlash (rstripSlash l) = rstripSlash l := by
  unfold rstripSlash
  rw [List.reverse_reverse, dropWhile_idem]

theorem rs_prefix (l : List Char) :
    ∃ t, l = rstripSlash l ++ t ∧ ∀ x ∈ t, x = '/' := by
  refine ⟨(l.reverse.takeWhile (fun c => decide (c = '/'))).reverse, ?_, ?_⟩
  · conv => lhs; rw [← l.reverse_reverse,
      ← List.takeWhile_append_dropWhile (fun c => decide (c = '/')) l.reverse]
    rw [List.reverse_append]
    rfl
  · intro x hx
    rw [List.mem_reverse] at hx
    have h2 := List.mem_takeWhile_imp hx
    simpa using h2

theorem rs_ne_slash (l : List Char) : rstripSlash l ≠ ['/'] := by
  unfold rstripSlash
  rcases dropWhile_head_not (fun c => decide (c = '/')) l.reverse with h | ⟨y, t, h, hy⟩
  · rw [h]
    simp
  · rw [h]
    intro he
    have : y :: t = ['/'] := by
      have := congrArg List.reverse he
      rwa [List.reverse_reverse] at this
    have hy2 : y = '/' := by
      cases this
      rfl
    simp [hy2] at hy

theorem stripPath_idem (p : List Char) : stripPath (stripPath p) = stripPath p := by
  unfold stripPath
  by_cases hp : p = ['/']
  · simp [hp]
  · rw [if_neg hp, if_neg (rs_ne_slash p), rs_idem]

theorem stripPath_mem {x : Char} {p : List Char} (h : x ∈ stripPath p) : x ∈ p := by
  unfold stripPath at h
  by_cases hp : p = ['/']
  · rwa [if_pos hp, ← hp] at h
  · rw [if_neg hp] at h
    exact rs_mem h

theorem stripPath_head (p : List Char) (h : p = [] ∨ p.head? = some '/') :
    stripPath p = [] ∨ (stripPath p).head? = some '/' := by
  unfold stripPath
  by_cases hp : p = ['/']
  · rw [if_pos hp]
    exact Or.inr rfl
  · rw [if_neg hp]
    rcases rs_prefix p with ⟨t, hdec, _⟩
    cases hr : rstripSlash p with
    | nil => exact Or.inl rfl
    | cons y ys =>
      rcases h with h | h
      · subst h
        simp [rstripSlash] at hr
      · right
        rw [hr] at hdec
        rw [hdec] at h
        simpa using h

theorem lastSeg_pre_append (p : List Char) : lastSegPre p ++ lastSeg p = p := by
  unfold lastSeg lastSegPre
  rw [← List.reverse_append, List.takeWhile_append_dropWhile, List.reverse_reverse]

theorem lastSeg_mem {x : Char} {p : List Char} (h : x ∈ lastSeg p) : x ∈ p := by
  unfold lastSeg at h
  rw [List.mem_reverse] at h
  exact List.mem_reverse.mp ((List.takeWhile_sublist _).mem h)

theorem lastSegPre_mem {x : Char} {p : List Char} (h : x ∈ lastSegPre p) : x ∈ p := by
  unfold lastSegPre at h
  rw [List.mem_reverse] at h
  exact List.mem_reverse.mp (mem_dropWhile h)

theorem lastSeg_no_slash (p : List Char) : '/' ∉ lastSeg p := by
  intro h
  unfold lastSeg at h
  rw [List.mem_reverse] at h
  have := List.mem_takeWhile_imp h
  simp at this

/-! ### prepSeg and combineParams lemmas -/

theorem prepSeg_mem {x : Char} {u : List Char} (h : x ∈ prepSeg u) :
    x = '/' ∨ x ∈ u := by
  unfold prepSeg at h
  by_cases hc : u ≠ [] ∧ u.head? ≠ some '/'
  · rw [if_pos hc] at h
    rcases List.mem_cons.mp h with h1 | h2
    · exact Or.inl h1
    · exact Or.inr h2
  · rw [if_neg hc] at h
    exact Or.inr h

theorem prepSeg_shape (u : List Char) :
    prepSeg u = [] ∨ (prepSeg u).head? = some '/' := by
  unfold prepSeg
  by_cases hc : u ≠ [] ∧ u.head? ≠ some '/'
  · rw [if_pos hc]
    exact Or.inr rfl
  · rw [if_neg hc]
    rcases not_and_or.mp hc with h | h
    · exact Or.inl (not_not.mp h)
    · exact Or.inr (not_not.mp h)

theorem combineParams_mem {x : Char} {p pr : List Char}
    (h : x ∈ combineParams p pr) : x ∈ p ∨ x = ';' ∨ x ∈ pr := by
  unfold combineParams at h
  by_cases hpr : pr = []
  · rw [if_pos hpr] at h
    exact Or.inl h
  · rw [if_neg hpr] at h
    rcases List.mem_append.mp h with h1 | h2
    · exact Or.inl h1
    · rcases List.mem_cons.mp h2 with h3 | h4
      · exact Or.inr (Or.inl h3)
      · exact Or.inr (Or.inr h4)

/-! ### Lower-fixed lists -/

/-- Every character of the list is fixed by lowerChar. -/
def LowerFixed (l : List Char) : Prop := ∀ c ∈ l, lowerChar c = c

theorem lowerFixed_lowerL (l : List Char) : LowerFixed (lowerL l) := by
  intro c hc
  rcases List.mem_map.mp hc with ⟨a, _, ha⟩
  rw [← ha]
  exact lowerChar_idem a

theorem lowerL_eq_of_lowerFixed {l : List Char} (h : LowerFixed l) : lowerL l = l := by
  unfold lowerL
  rw [List.map_congr_left h]
  simp

theorem lowerFixed_append {a b : List Char} (ha : LowerFixed a) (hb : LowerFixed b) :
    LowerFixed (a ++ b) := by
  intro c hc
  rcases List.mem_append.mp hc with h | h
  · exact ha c h
  · exact hb c h

theorem lowerFixed_cons {x : Char} {l : List Char} (hx : lowerChar x = x)
    (hl : LowerFixed l) : LowerFixed (x :: l) := by
  intro c hc
  rcases List.mem_cons.mp hc with h | h
  · rw [h]; exact hx
  · exact hl c h

theorem lowerFixed_subset {a b : List Char} (h : ∀ x ∈ a, x ∈ b)
    (hb : LowerFixed b) : LowerFixed a := fun c hc => hb c (h c hc)

/-- Membership of a non-letter character passes through lowerL unchanged. -/
theorem mem_lowerL_iff {d : Char} (hd1 : ¬(65 ≤ d.toNat ∧ d.toNat ≤ 90))
    (hd2 : ¬(97 ≤ d.toNat ∧ d.toNat ≤ 122)) (l : List Char) :
    d ∈ lowerL l ↔ d ∈ l := by
  unfold lowerL
  rw [List.mem_map]
  constructor
  · rintro ⟨a, ha, he⟩
    rwa [(lowerChar_eq_iff hd1 hd2).mp he] at ha
  · intro h
    exact ⟨d, h, (lowerChar_eq_iff hd1 hd2).mpr rfl⟩

/-! ### Structure of urlsplitL and urlparseL -/

theorem urlsplitL_def (m : List Char) :
    urlsplitL m =
      { scheme := (schemeSplit (splitFirst '#' m).1).1,
        netloc := (netlocSplit (schemeSplit (splitFirst '#' m).1).2).1,
        path := (splitFirst '?' (netlocSplit (schemeSplit (splitFirst '#' m).1).2).2).1,
        params := [],
        query :=
          ((splitFirst '?' (netlocSplit (schemeSplit (splitFirst '#' m).1).2).2).2).getD [],
        fragment := ((splitFirst '#' m).2).getD [] } := rfl

theorem schemeSplit_eq_some {r pre b : List Char}
    (hsp : splitFirst ':' r = (pre, some b)) :
    schemeSplit r = if validScheme pre then (lowerL pre, b) else ([], r) := by
  unfold schemeSplit
  rw [hsp]

theorem schemeSplit_eq_none {r pre : List Char}
    (hsp : splitFirst ':' r = (pre, none)) : schemeSplit r = ([], r) := by
  unfold schemeSplit
  rw [hsp]

theorem schemeSplit_snd_mem {x : Char} {r : List Char}
    (h : x ∈ (schemeSplit r).2) : x ∈ r := by
  rcases hsp : splitFirst ':' r with ⟨pre, post⟩
  cases post with
  | none => rw [schemeSplit_eq_none hsp] at h; exact h
  | some b =>
    rw [schemeSplit_eq_some hsp] at h
    by_cases hv : validScheme pre
    · rw [if_pos hv] at h
      exact sf_mem_snd (by rw [hsp]) h
    · rw [if_neg hv] at h
      exact h

theorem schemeSplit_fst_mem {x : Char} {r : List Char}
    (h : x ∈ (schemeSplit r).1) : ∃ y ∈ r, lowerChar y = x := by
  rcases hsp : splitFirst ':' r with ⟨pre, post⟩
  cases post with
  | none => rw [schemeSplit_eq_none hsp] at h; simp at h
  | some b =>
    rw [schemeSplit_eq_some hsp] at h
    by_cases hv : validScheme pre
    · rw [if_pos hv] at h
      rcases List.mem_map.mp h with ⟨a, ha, he⟩
      exact ⟨a, sf_mem_fst (by rw [hsp]; exact ha), he⟩
    · rw [if_neg hv] at h
      simp at h

theorem schemeSplit_fst_lowerFixed (r : List Char) : LowerFixed (schemeSplit r).1 := by
  rcases hsp : splitFirst ':' r with ⟨pre, post⟩
  cases post with
  | none => rw [schemeSplit_eq_none hsp]; intro c hc; simp at hc
  | some b =>
    rw [schemeSplit_eq_some hsp]
    by_cases hv : validScheme pre
    · rw [if_pos hv]
      exact lowerFixed_lowerL pre
    · rw [if_neg hv]
      intro c hc; simp at hc

theorem netlocSplit_fst_not_delim {x : Char} {r2 : List Char}
    (h : x ∈ (netlocSplit r2).1) : x ≠ '/' ∧ x ≠ '?' ∧ x ≠ '#' := by
  unfold netlocSplit at h
  by_cases hb : r2.take 2 = ['/', '/']
  · rw [if_pos hb] at h
    have := tu_fst_not_mem h
    simp only [List.mem_cons, List.mem_singleton, not_or] at this
    exact ⟨this.1, this.2.1, by simpa using this.2.2⟩
  · rw [if_neg hb] at h
    simp at h

theorem netlocSplit_fst_mem {x : Char} {r2 : List Char}
    (h : x ∈ (netlocSplit r2).1) : x ∈ r2 := by
  unfold netlocSplit at h
  by_cases hb : r2.take 2 = ['/', '/']
  · rw [if_pos hb] at h
    have h2 : x ∈ r2.drop 2 := by
      rw [tu_decomp ['/', '?', '#'] (r2.drop 2)]
      exact List.mem_append_left _ h
    exact (List.drop_sublist 2 r2).mem h2
  · rw [if_neg hb] at h
    simp at h

theorem netlocSplit_snd_mem {x : Char} {r2 : List Char}
    (h : x ∈ (netlocSplit r2).2) : x ∈ r2 := by
  unfold netlocSplit at h
  by_cases hb : r2.take 2 = ['/', '/']
  · rw [if_pos hb] at h
    have h2 : x ∈ r2.drop 2 := by
      rw [tu_decomp ['/', '?', '#'] (r2.drop 2)]
      exact List.mem_append_right _ h
    exact (List.drop_sublist 2 r2).mem h2
  · rw [if_neg hb] at h
    exact h

theorem netlocSplit_fst_ne_nil_branch {r2 : List Char}
    (h : (netlocSplit r2).1 ≠ []) : r2.take 2 = ['/', '/'] := by
  by_contra hb
  apply h
  unfold netlocSplit
  rw [if_neg hb]

theorem urlsplit_scheme_lowerFixed (m : List Char) : LowerFixed (urlsplitL m).scheme := by
  rw [urlsplitL_def]
  exact schemeSplit_fst_lowerFixed _

theorem urlsplit_no_hash (m : List Char) :
    '#' ∉ (urlsplitL m).scheme ∧ '#' ∉ (urlsplitL m).netloc ∧
      '#' ∉ (urlsplitL m).path ∧ '#' ∉ (urlsplitL m).query := by
  have hrest : '#' ∉ (splitFirst '#' m).1 := sf_fst_not_mem '#' m
  rw [urlsplitL_def]
  refine ⟨?_, ?_, ?_, ?_⟩
  · intro h
    rcases schemeSplit_fst_mem h with ⟨y, hy, he⟩
    have hy2 : y = '#' := (lowerChar_eq_iff (by decide) (by decide)).mp he
    exact hrest (hy2 ▸ hy)
  · intro h
    exact hrest (schemeSplit_snd_mem (netlocSplit_fst_mem h))
  · intro h
    exact hrest (schemeSplit_snd_mem (netlocSplit_snd_mem (sf_mem_fst h)))
  · intro h
    cases hq : (splitFirst '?'
        (netlocSplit (schemeSplit (splitFirst '#' m).1).2).2).2 with
    | none =>
      rw [hq] at h
      simp at h
    | some b =>
      rw [hq] at h
      exact hrest (schemeSplit_snd_mem (netlocSplit_snd_mem (sf_mem_snd hq h)))

theorem urlsplit_path_no_q (m : List Char) : '?' ∉ (urlsplitL m).path := by
  rw [urlsplitL_def]
  exact sf_fst_not_mem '?' _

theorem urlsplit_netloc_delim (m : List Char) :
    ∀ x ∈ (urlsplitL m).netloc, x ≠ '/' ∧ x ≠ '?' ∧ x ≠ '#' := by
  rw [urlsplitL_def]
  intro x hx
  exact netlocSplit_fst_not_delim hx

theorem urlsplit_path_shape (m : List Char) (hn : (urlsplitL m).netloc ≠ []) :
    (urlsplitL m).path = [] ∨ (urlsplitL m).path.head? = some '/' := by
  rw [urlsplitL_def] at hn ⊢
  simp only [] at hn ⊢
  have hb := netlocSplit_fst_ne_nil_branch hn
  have hns : netlocSplit (schemeSplit (splitFirst '#' m).1).2 =
      takeUntil ['/', '?', '#'] ((schemeSplit (splitFirst '#' m).1).2.drop 2) := by
    unfold netlocSplit
    rw [if_pos hb]
  rcases tu_snd_cases ['/', '?', '#'] ((schemeSplit (splitFirst '#' m).1).2.drop 2)
      with h0 | ⟨y, t, h0, hy⟩
  · left
    rw [hns, h0]
    rfl
  · have hyh : y ≠ '#' := by
      intro he
      have hm : '#' ∈ (netlocSplit (schemeSplit (splitFirst '#' m).1).2).2 := by
        rw [hns, h0]
        exact he ▸ List.mem_cons_self y t
      exact sf_fst_not_mem '#' m (schemeSplit_snd_mem (netlocSplit_snd_mem hm))
    have hy3 : y = '/' ∨ y = '?' := by
      rcases List.mem_cons.mp hy with h1 | h1
      · exact Or.inl h1
      rcases List.mem_cons.mp h1 with h2 | h2
      · exact Or.inr h2
      · exact absurd (by simpa using h2) hyh
    rcases hy3 with h1 | h1
    · right
      rw [hns, h0, h1, sf_cons_ne (by decide)]
      rfl
    · left
      rw [hns, h0, h1, sf_cons_self]

theorem splitParams_eq_none {p a : List Char}
    (hsp : splitFirst ';' (lastSeg p) = (a, none)) : splitParams p = (p, []) := by
  unfold splitParams
  rw [hsp]

theorem splitParams_eq_some {p a b2 : List Char}
    (hsp : splitFirst ';' (lastSeg p) = (a, some b2)) :
    splitParams p = (lastSegPre p ++ a, b2) := by
  unfold splitParams
  rw [hsp]

theorem urlparseL_eq_pos {m : List Char}
    (h : (usesParams (urlsplitL m).scheme && decide (';' ∈ (urlsplitL m).path)) = true) :
    urlparseL m =
      { urlsplitL m with path := (splitParams (urlsplitL m).path).1,
                         params := (splitParams (urlsplitL m).path).2 } := by
  unfold urlparseL
  rw [if_pos h]

theorem urlparseL_eq_neg {m : List Char}
    (h : ¬ (usesParams (urlsplitL m).scheme &&
        decide (';' ∈ (urlsplitL m).path)) = true) :
    urlparseL m = urlsplitL m := by
  unfold urlparseL
  rw [if_neg h]

theorem urlparse_scheme (m : List Char) : (urlparseL m).scheme = (urlsplitL m).scheme := by
  by_cases h : (usesParams (urlsplitL m).scheme && decide (';' ∈ (urlsplitL m).path)) = true
  · rw [urlparseL_eq_pos h]
  · rw [urlparseL_eq_neg h]

theorem urlparse_netloc (m : List Char) : (urlparseL m).netloc = (urlsplitL m).netloc := by
  by_cases h : (usesParams (urlsplitL m).scheme && decide (';' ∈ (urlsplitL m).path)) = true
  · rw [urlparseL_eq_pos h]
  · rw [urlparseL_eq_neg h]

theorem urlparse_query (m : List Char) : (urlparseL m).query = (urlsplitL m).query := by
  by_cases h : (usesParams (urlsplitL m).scheme && decide (';' ∈ (urlsplitL m).path)) = true
  · rw [urlparseL_eq_pos h]
  · rw [urlparseL_eq_neg h]

theorem urlparse_fragment (m : List Char) :
    (urlparseL m).fragment = (urlsplitL m).fragment := by
  by_cases h : (usesParams (urlsplitL m).scheme && decide (';' ∈ (urlsplitL m).path)) = true
  · rw [urlparseL_eq_pos h]
  · rw [urlparseL_eq_neg h]

theorem urlparse_path_mem {x : Char} {m : List Char}
    (h : x ∈ (urlparseL m).path) : x ∈ (urlsplitL m).path := by
  by_cases hg : (usesParams (urlsplitL m).scheme &&
      decide (';' ∈ (urlsplitL m).path)) = true
  · rw [urlparseL_eq_pos hg] at h
    rcases hsp : splitFirst ';' (lastSeg (urlsplitL m).path) with ⟨a, b⟩
    cases b with
    | none =>
      rw [splitParams_eq_none hsp] at h
      exact h
    | some b2 =>
      rw [splitParams_eq_some hsp] at h
      rcases List.mem_append.mp h with h1 | h2
      · exact lastSegPre_mem h1
      · exact lastSeg_mem (sf_mem_fst (by rw [hsp]; exact h2))
  · rwa [urlparseL_eq_neg hg] at h

theorem urlparse_params_mem {x : Char} {m : List Char}
    (h : x ∈ (urlparseL m).params) : x ∈ lastSeg (urlsplitL m).path := by
  by_cases hg : (usesParams (urlsplitL m).scheme &&
      decide (';' ∈ (urlsplitL m).path)) = true
  · rw [urlparseL_eq_pos hg] at h
    rcases hsp : splitFirst ';' (lastSeg (urlsplitL m).path) with ⟨a, b⟩
    cases b with
    | none =>
      rw [splitParams_eq_none hsp] at h
      simp at h
    | some b2 =>
      rw [splitParams_eq_some hsp] at h
      exact sf_mem_snd (by rw [hsp]) h
  · rw [urlparseL_eq_neg hg] at h
    simp [urlsplitL_def] at h

theorem urlparse_params_no_slash (m : List Char) : '/' ∉ (urlparseL m).params := by
  intro h
  exact lastSeg_no_slash _ (urlparse_params_mem h)

theorem urlparse_path_shape (m : List Char) (hn : (urlparseL m).netloc ≠ []) :
    (urlparseL m).path = [] ∨ (urlparseL m).path.head? = some '/' := by
  rw [urlparse_netloc] at hn
  by_cases hg : (usesParams (urlsplitL m).scheme &&
      decide (';' ∈ (urlsplitL m).path)) = true
  · have hmem : ';' ∈ (urlsplitL m).path := by
      have := (Bool.and_eq_true _ _).mp hg
      exact of_decide_eq_true this.2
    have hne : (urlsplitL m).path ≠ [] := by
      intro he
      rw [he] at hmem
      simp at hmem
    have hshape := urlsplit_path_shape m hn
    have hhead : (urlsplitL m).path.head? = some '/' := by
      rcases hshape with h0 | h0
      · exact absurd h0 hne
      · exact h0
    rw [urlparseL_eq_pos hg]
    rcases hsp : splitFirst ';' (lastSeg (urlsplitL m).path) with ⟨a, b⟩
    cases b with
    | none =>
      rw [splitParams_eq_none hsp]
      right
      exact hhead
    | some b2 =>
      rw [splitParams_eq_some hsp]
      right
      have hpre : lastSegPre (urlsplitL m).path ≠ [] := by
        intro he
        have hdec := lastSeg_pre_append (urlsplitL m).path
        rw [he, List.nil_append] at hdec
        have hslash : '/' ∈ (urlsplitL m).path := by
          rcases hp : (urlsplitL m).path with _ | ⟨z, zs⟩
          · exact absurd hp hne
          · have hz : z = '/' := by
              rw [hp] at hhead
              simpa using hhead
            subst hz
            exact List.mem_cons_self _ _
        rw [← hdec] at hslash
        exact lastSeg_no_slash _ hslash
      rcases hpp : lastSegPre (urlsplitL m).path with _ | ⟨z, zs⟩
      · exact absurd hpp hpre
      · have hdec := lastSeg_pre_append (urlsplitL m).path
        rw [hpp] at hdec
        have hz : z = '/' := by
          rw [← hdec] at hhead
          simpa using hhead
        simp only [hpp, List.cons_append, List.head?_cons, hz]
  · rw [urlparseL_eq_neg hg]
    exact urlsplit_path_shape m hn

/-! ### Lowercasing commutes with parsing -/

theorem lowerChar_hash_iff (x : Char) : lowerChar x = '#' ↔ x = '#' :=
  lowerChar_eq_iff (by decide) (by decide)

theorem lowerChar_colon_iff (x : Char) : lowerChar x = ':' ↔ x = ':' :=
  lowerChar_eq_iff (by decide) (by decide)

theorem lowerChar_slash_iff (x : Char) : lowerChar x = '/' ↔ x = '/' :=
  lowerChar_eq_iff (by decide) (by decide)

theorem lowerChar_q_iff (x : Char) : lowerChar x = '?' ↔ x = '?' :=
  lowerChar_eq_iff (by decide) (by decide)

theorem lowerChar_semi_iff (x : Char) : lowerChar x = ';' ↔ x = ';' :=
  lowerChar_eq_iff (by decide) (by decide)

theorem lowerChar_mem_delims_iff (x : Char) :
    lowerChar x ∈ ['/', '?', '#'] ↔ x ∈ ['/', '?', '#'] := by
  simp only [List.mem_cons, List.not_mem_nil, or_false]
  rw [lowerChar_slash_iff, lowerChar_q_iff, lowerChar_hash_iff]

theorem schemeSplit_lower (r : List Char) :
    schemeSplit (lowerL r) = ((schemeSplit r).1, lowerL (schemeSplit r).2) := by
  have hmap := sf_map lowerChar lowerChar_colon_iff r
  rcases hsp : splitFirst ':' r with ⟨pre, post⟩
  rw [hsp] at hmap
  cases post with
  | none =>
    have hsp2 : splitFirst ':' (lowerL r) = (lowerL pre, none) := hmap
    rw [schemeSplit_eq_none hsp2, schemeSplit_eq_none hsp]
  | some b =>
    have hsp2 : splitFirst ':' (lowerL r) = (lowerL pre, some (lowerL b)) := hmap
    rw [schemeSplit_eq_some hsp2, schemeSplit_eq_some hsp, validScheme_lowerL]
    by_cases hv : validScheme pre
    · rw [if_pos hv, if_pos hv, lowerL_idem]
    · rw [if_neg hv, if_neg hv]

theorem lowerL_eq_slash2_iff (x : List Char) :
    lowerL x = ['/', '/'] ↔ x = ['/', '/'] := by
  cases x with
  | nil => simp [lowerL]
  | cons a t =>
    cases t with
    | nil => simp [lowerL]
    | cons b t2 =>
      simp only [lowerL, List.map_cons, List.cons.injEq, List.map_eq_nil_iff,
        lowerChar_slash_iff]

theorem netlocSplit_lower (r2 : List Char) :
    netlocSplit (lowerL r2) = (lowerL (netlocSplit r2).1, lowerL (netlocSplit r2).2) := by
  have htake : ((lowerL r2).take 2 = ['/', '/']) ↔ (r2.take 2 = ['/', '/']) := by
    unfold lowerL
    rw [← List.map_take]
    exact lowerL_eq_slash2_iff (r2.take 2)
  unfold netlocSplit
  by_cases hb : r2.take 2 = ['/', '/']
  · rw [if_pos (htake.mpr hb), if_pos hb]
    have hdrop : (lowerL r2).drop 2 = lowerL (r2.drop 2) := by
      unfold lowerL
      rw [List.map_drop]
    rw [hdrop]
    exact tu_map lowerChar lowerChar_mem_delims_iff (r2.drop 2)
  · rw [if_neg (fun h => hb (htake.mp h)), if_neg hb]
    rfl

theorem takeWhile_map_eq {p q : Char → Bool} (f : Char → Char)
    (hpf : ∀ x, p (f x) = q x) (l : List Char) :
    (l.map f).takeWhile p = (l.takeWhile q).map f := by
  rw [List.takeWhile_map]
  have : p ∘ f = q := funext hpf
  rw [this]

theorem dropWhile_map_eq {p q : Char → Bool} (f : Char → Char)
    (hpf : ∀ x, p (f x) = q x) (l : List Char) :
    (l.map f).dropWhile p = (l.dropWhile q).map f := by
  rw [List.dropWhile_map]
  have : p ∘ f = q := funext hpf
  rw [this]

theorem lastSeg_lower (p : List Char) : lastSeg (lowerL p) = lowerL (lastSeg p) := by
  unfold lastSeg lowerL
  rw [← List.map_reverse, takeWhile_map_eq lowerChar
    (fun x => decide_eq_decide.mpr (not_congr (lowerChar_slash_iff x))),
    List.map_reverse]

theorem lastSegPre_lower (p : List Char) :
    lastSegPre (lowerL p) = lowerL (lastSegPre p) := by
  unfold lastSegPre lowerL
  rw [← List.map_reverse, dropWhile_map_eq lowerChar
    (fun x => decide_eq_decide.mpr (not_congr (lowerChar_slash_iff x))),
    List.map_reverse]

theorem splitParams_lower (p : List Char) :
    splitParams (lowerL p) = (lowerL (splitParams p).1, lowerL (splitParams p).2) := by
  have hmap := sf_map lowerChar lowerChar_semi_iff (lastSeg p)
  rcases hsp : splitFirst ';' (lastSeg p) with ⟨a, b⟩
  rw [hsp] at hmap
  cases b with
  | none =>
    have hsp2 : splitFirst ';' (lastSeg (lowerL p)) = (lowerL a, none) := by
      rw [lastSeg_lower]
      exact hmap
    rw [splitParams_eq_none hsp2, splitParams_eq_none hsp]
    rfl
  | some b2 =>
    have hsp2 : splitFirst ';' (lastSeg (lowerL p)) = (lowerL a, some (lowerL b2)) := by
      rw [lastSeg_lower]
      exact hmap
    rw [splitParams_eq_some hsp2, splitParams_eq_some hsp, lastSegPre_lower]
    unfold lowerL
    rw [List.map_append]

theorem urlsplit_lower (l : List Char) :
    urlsplitL (lowerL l) =
      { scheme := (urlsplitL l).scheme, netloc := lowerL (urlsplitL l).netloc,
        path := lowerL (urlsplitL l).path, params := [],
        query := lowerL (urlsplitL l).query,
        fragment := lowerL (urlsplitL l).fragment } := by
  rw [urlsplitL_def, urlsplitL_def]
  rcases hf : splitFirst '#' l with ⟨frest, ffrag⟩
  have h1 := sf_map lowerChar lowerChar_hash_iff l
  rw [hf] at h1
  have h1' : splitFirst '#' (lowerL l) = (lowerL frest, ffrag.map lowerL) := h1
  rw [h1']
  dsimp only
  rw [schemeSplit_lower frest]
  dsimp only
  rw [netlocSplit_lower (schemeSplit frest).2]
  dsimp only
  rcases hq : splitFirst '?' (netlocSplit (schemeSplit frest).2).2 with ⟨qpath, qq⟩
  have h4 := sf_map lowerChar lowerChar_q_iff (netlocSplit (schemeSplit frest).2).2
  rw [hq] at h4
  have h4' : splitFirst '?' (lowerL (netlocSplit (schemeSplit frest).2).2) =
      (lowerL qpath, qq.map lowerL) := h4
  rw [h4']
  dsimp only
  simp only [UrlParts.mk.injEq]
  refine ⟨True.intro, True.intro, True.intro, True.intro, ?_, ?_⟩
  · cases qq with
    | none => rfl
    | some qv => rfl
  · cases ffrag with
    | none => rfl
    | some fv => rfl

theorem urlparse_lower (l : List Char) :
    urlparseL (lowerL l) =
      { scheme := (urlparseL l).scheme, netloc := lowerL (urlparseL l).netloc,
        path := lowerL (urlparseL l).path, params := lowerL (urlparseL l).params,
        query := lowerL (urlparseL l).query,
        fragment := lowerL (urlparseL l).fragment } := by
  have hs := urlsplit_lower l
  have hsemi : (decide (';' ∈ (urlsplitL (lowerL l)).path)) =
      (decide (';' ∈ (urlsplitL l).path)) := by
    rw [hs]
    dsimp only
    exact decide_eq_decide.mpr (mem_lowerL_iff (by decide) (by decide) _)
  have hguard : (usesParams (urlsplitL (lowerL l)).scheme &&
        decide (';' ∈ (urlsplitL (lowerL l)).path)) =
      (usesParams (urlsplitL l).scheme && decide (';' ∈ (urlsplitL l).path)) := by
    rw [hsemi, hs]
  by_cases hg : (usesParams (urlsplitL l).scheme &&
      decide (';' ∈ (urlsplitL l).path)) = true
  · rw [urlparseL_eq_pos (hguard.trans hg), urlparseL_eq_pos hg, hs]
    simp only [UrlParts.mk.injEq]
    have hp := splitParams_lower (urlsplitL l).path
    exact ⟨True.intro, True.intro, congrArg Prod.fst hp, congrArg Prod.snd hp,
      True.intro, True.intro⟩
  · rw [urlparseL_eq_neg (fun h => hg (hguard.symm.trans h)), urlparseL_eq_neg hg, hs]
    have hp0 : (urlsplitL l).params = [] := by rw [urlsplitL_def]
    rw [hp0]
    rfl

/-! ### Re-parsing a recomposed http or https URL -/

theorem urlsplit_recomp (s n rest2 : List Char)
    (hs : s = "http".data ∨ s = "https".data)
    (hnd : ∀ x ∈ n, x ≠ '/' ∧ x ≠ '?' ∧ x ≠ '#')
    (hrh : '#' ∉ rest2)
    (hshape : rest2 = [] ∨ rest2.head? = some '/' ∨ rest2.head? = some '?') :
    urlsplitL (s ++ ':' :: '/' :: '/' :: (n ++ rest2)) =
      { scheme := s, netloc := n, path := (splitFirst '?' rest2).1, params := [],
        query := ((splitFirst '?' rest2).2).getD [], fragment := [] } := by
  have hs_hash : '#' ∉ s := by
    rcases hs with rfl | rfl <;> decide
  have hs_colon : ':' ∉ s := by
    rcases hs with rfl | rfl <;> decide
  have hU_hash : '#' ∉ s ++ ':' :: '/' :: '/' :: (n ++ rest2) := by
    intro h
    rcases List.mem_append.mp h with h | h
    · exact hs_hash h
    · simp only [List.mem_cons] at h
      rcases h with h | h | h | h
      · exact absurd h (by decide)
      · exact absurd h (by decide)
      · exact absurd h (by decide)
      · rcases List.mem_append.mp h with h | h
        · exact ((hnd _ h).2.2) rfl
        · exact hrh h
  rw [urlsplitL_def, sf_not_mem hU_hash]
  dsimp only
  have h2 : splitFirst ':' (s ++ ':' :: '/' :: '/' :: (n ++ rest2)) =
      (s, some ('/' :: '/' :: (n ++ rest2))) := by
    rw [sf_append_left hs_colon, sf_cons_self]
    simp
  rw [schemeSplit_eq_some h2]
  have hv : validScheme s = true := by
    rcases hs with rfl | rfl <;> decide
  rw [if_pos hv]
  have hls : lowerL s = s := by
    rcases hs with rfl | rfl <;> decide
  rw [hls]
  dsimp only
  have htu : takeUntil ['/', '?', '#'] rest2 = ([], rest2) := by
    rcases hshape with h0 | h0 | h0
    · rw [h0]
      rfl
    · cases rest2 with
      | nil => simp at h0
      | cons y t =>
        have hy : y = '/' := by simpa using h0
        subst hy
        exact tu_cons_mem (by decide) t
    · cases rest2 with
      | nil => simp at h0
      | cons y t =>
        have hy : y = '?' := by simpa using h0
        subst hy
        exact tu_cons_mem (by decide) t
  have h3 : netlocSplit ('/' :: '/' :: (n ++ rest2)) = (n, rest2) := by
    unfold netlocSplit
    have hc : List.take 2 ('/' :: '/' :: (n ++ rest2)) = ['/', '/'] := rfl
    rw [if_pos hc]
    have hnds : ∀ x ∈ n, x ∉ (['/', '?', '#'] : List Char) := by
      intro x hx hmem
      have hd := hnd x hx
      simp only [List.mem_cons, List.not_mem_nil, or_false] at hmem
      rcases hmem with h | h | h
      · exact hd.1 h
      · exact hd.2.1 h
      · exact hd.2.2 h
    show takeUntil ['/', '?', '#'] (n ++ rest2) = (n, rest2)
    rw [tu_append_left hnds, htu, List.append_nil]
  rw [h3]
  rfl

/-- '?' does not occur in the recombined path-plus-params segment. -/
theorem prepSeg_combine_no_q {p pr : List Char} (hpq : '?' ∉ p) (hprq : '?' ∉ pr) :
    '?' ∉ prepSeg (combineParams p pr) := by
  intro h
  rcases prepSeg_mem h with h | h
  · exact absurd h (by decide)
  · rcases combineParams_mem h with h | h | h
    · exact hpq h
    · exact absurd h (by decide)
    · exact hprq h

/-- '#' does not occur in the recombined path-plus-params segment. -/
theorem prepSeg_combine_no_hash {p pr : List Char} (hph : '#' ∉ p) (hprh : '#' ∉ pr) :
    '#' ∉ prepSeg (combineParams p pr) := by
  intro h
  rcases prepSeg_mem h with h | h
  · exact absurd h (by decide)
  · rcases combineParams_mem h with h | h | h
    · exact hph h
    · exact absurd h (by decide)
    · exact hprh h

/-- Re-parsing the output of urlunparse for an http or https URL with a
nonempty netloc recovers the scheme, netloc and query exactly; the path slot
holds the recombined path-plus-params segment. -/
theorem reparse_split (s n p pr q : List Char)
    (hs : s = "http".data ∨ s = "https".data)
    (hn : n ≠ [])
    (hnd : ∀ x ∈ n, x ≠ '/' ∧ x ≠ '?' ∧ x ≠ '#')
    (hph : '#' ∉ p) (hpq : '?' ∉ p)
    (hprh : '#' ∉ pr) (hprq : '?' ∉ pr)
    (hqh : '#' ∉ q) :
    urlsplitL (urlunparseL s n p pr q []) =
      { scheme := s, netloc := n, path := prepSeg (combineParams p pr), params := [],
        query := q, fragment := [] } := by
  have hsne : s ≠ [] := by
    rcases hs with rfl | rfl <;> decide
  have hU : urlunparseL s n p pr q [] =
      s ++ ':' :: '/' :: '/' :: (n ++ (prepSeg (combineParams p pr) ++
        (if q = [] then [] else '?' :: q))) := by
    simp only [urlunparseL]
    rw [if_pos (Or.inl hn), if_neg hsne]
    by_cases hq0 : q = []
    · rw [if_pos hq0]
      simp [hq0]
    · rw [if_neg hq0]
      simp [hq0]
  rw [hU]
  have hrh : '#' ∉ prepSeg (combineParams p pr) ++ (if q = [] then [] else '?' :: q) := by
    intro h
    rcases List.mem_append.mp h with h | h
    · exact prepSeg_combine_no_hash hph hprh h
    · by_cases hq0 : q = []
      · rw [if_pos hq0] at h
        simp at h
      · rw [if_neg hq0] at h
        rcases List.mem_cons.mp h with h | h
        · exact absurd h (by decide)
        · exact hqh h
  have hshape : prepSeg (combineParams p pr) ++ (if q = [] then [] else '?' :: q) = [] ∨
      (prepSeg (combineParams p pr) ++
        (if q = [] then [] else '?' :: q)).head? = some '/' ∨
      (prepSeg (combineParams p pr) ++
        (if q = [] then [] else '?' :: q)).head? = some '?' := by
    rcases prepSeg_shape (combineParams p pr) with h0 | h0
    · rw [h0, List.nil_append]
      by_cases hq0 : q = []
      · rw [if_pos hq0]
        exact Or.inl rfl
      · rw [if_neg hq0]
        exact Or.inr (Or.inr rfl)
    · cases hpp : prepSeg (combineParams p pr) with
      | nil =>
        rw [hpp] at h0
        simp at h0
      | cons y t =>
        rw [hpp] at h0
        have hy : y = '/' := by simpa using h0
        subst hy
        exact Or.inr (Or.inl rfl)
  rw [urlsplit_recomp s n _ hs hnd hrh hshape]
  have hsf : splitFirst '?'
      (prepSeg (combineParams p pr) ++ (if q = [] then [] else '?' :: q)) =
      (prepSeg (combineParams p pr), if q = [] then none else some q) := by
    rw [sf_append_left (prepSeg_combine_no_q hpq hprq)]
    by_cases hq0 : q = []
    · rw [if_pos hq0]
      simp [splitFirst, hq0]
    · rw [if_neg hq0, if_neg hq0, sf_cons_self]
      simp
  rw [hsf]
  simp only [UrlParts.mk.injEq]
  refine ⟨True.intro, True.intro, True.intro, True.intro, ?_, True.intro⟩
  by_cases hq0 : q = []
  · rw [if_pos hq0, hq0]
    rfl
  · rw [if_neg hq0]
    rfl

/-! ### Facts about normalizeL -/

theorem combineParams_nil (p : List Char) : combineParams p [] = p := by
  simp [combineParams]

theorem prepSeg_eq_self {u : List Char} (h : u = [] ∨ u.head? = some '/') :
    prepSeg u = u := by
  unfold prepSeg
  rw [if_neg]
  rcases h with h | h
  · intro hc
    exact hc.1 h
  · intro hc
    exact hc.2 (by rw [h])

theorem validFormatL_spec {l : List Char} (hv : validFormatL l = true) :
    ((urlparseL l).scheme = "http".data ∨ (urlparseL l).scheme = "https".data) ∧
      (urlparseL l).netloc ≠ [] := by
  unfold validFormatL at hv
  by_cases h0 : l = []
  · rw [if_pos h0] at hv
    exact absurd hv (by simp)
  · rw [if_neg h0] at hv
    simp only [Bool.and_eq_true, Bool.or_eq_true, decide_eq_true_eq, Bool.not_eq_true',
      decide_eq_false_iff_not] at hv
    exact hv

theorem scheme_of_lower {l : List Char} (hv : validFormatL l = true) :
    (urlparseL (lowerL l)).scheme = "http".data ∨
      (urlparseL (lowerL l)).scheme = "https".data := by
  have he : (urlparseL (lowerL l)).scheme = (urlparseL l).scheme := by
    rw [urlparse_lower]
  rw [he]
  exact (validFormatL_spec hv).1

theorem netloc_of_lower {l : List Char} (hv : validFormatL l = true) :
    (urlparseL (lowerL l)).netloc ≠ [] := by
  have he : (urlparseL (lowerL l)).netloc = lowerL (urlparseL l).netloc := by
    rw [urlparse_lower]
  rw [he]
  intro h
  exact (validFormatL_spec hv).2 (List.map_eq_nil_iff.mp h)

theorem urlparse_netloc_delim (m : List Char) :
    ∀ x ∈ (urlparseL m).netloc, x ≠ '/' ∧ x ≠ '?' ∧ x ≠ '#' := by
  rw [urlparse_netloc]
  exact urlsplit_netloc_delim m

theorem urlparse_path_no_hash (m : List Char) : '#' ∉ (urlparseL m).path := by
  intro h
  exact (urlsplit_no_hash m).2.2.1 (urlparse_path_mem h)

theorem urlparse_path_no_q (m : List Char) : '?' ∉ (urlparseL m).path := by
  intro h
  exact urlsplit_path_no_q m (urlparse_path_mem h)

theorem urlparse_params_no_hash (m : List Char) : '#' ∉ (urlparseL m).params := by
  intro h
  exact (urlsplit_no_hash m).2.2.1 (lastSeg_mem (urlparse_params_mem h))

theorem urlparse_params_no_q (m : List Char) : '?' ∉ (urlparseL m).params := by
  intro h
  exact urlsplit_path_no_q m (lastSeg_mem (urlparse_params_mem h))

theorem urlparse_query_no_hash (m : List Char) : '#' ∉ (urlparseL m).query := by
  rw [urlparse_query]
  exact (urlsplit_no_hash m).2.2.2

/-- Re-parsing a normalized URL at the urlsplit level. -/
theorem normalize_reparse (l : List Char) (hv : validFormatL l = true) :
    urlsplitL (normalizeL l) =
      { scheme := (urlparseL (lowerL l)).scheme,
        netloc := (urlparseL (lowerL l)).netloc,
        path := prepSeg (combineParams (stripPath (urlparseL (lowerL l)).path)
          (urlparseL (lowerL l)).params),
        params := [], query := (urlparseL (lowerL l)).query, fragment := [] } := by
  exact reparse_split (urlparseL (lowerL l)).scheme (urlparseL (lowerL l)).netloc
    (stripPath (urlparseL (lowerL l)).path) (urlparseL (lowerL l)).params
    (urlparseL (lowerL l)).query
    (scheme_of_lower hv)
    (netloc_of_lower hv)
    (urlparse_netloc_delim (lowerL l))
    (fun h => urlparse_path_no_hash (lowerL l) (stripPath_mem h))
    (fun h => urlparse_path_no_q (lowerL l) (stripPath_mem h))
    (urlparse_params_no_hash (lowerL l))
    (urlparse_params_no_q (lowerL l))
    (urlparse_query_no_hash (lowerL l))

/-- With a semicolon-free path and no params, re-parsing a normalized URL at
the urlparse level gives back the stripped components exactly. -/
theorem normalize_parse_eq (l : List Char) (hv : validFormatL l = true)
    (hsemi : ';' ∉ (urlparseL (lowerL l)).path)
    (hpr : (urlparseL (lowerL l)).params = []) :
    urlparseL (normalizeL l) =
      { scheme := (urlparseL (lowerL l)).scheme,
        netloc := (urlparseL (lowerL l)).netloc,
        path := stripPath (urlparseL (lowerL l)).path, params := [],
        query := (urlparseL (lowerL l)).query, fragment := [] } := by
  have hshape : (urlparseL (lowerL l)).path = [] ∨
      (urlparseL (lowerL l)).path.head? = some '/' :=
    urlparse_path_shape (lowerL l) (netloc_of_lower hv)
  have hsplit := normalize_reparse l hv
  rw [hpr, combineParams_nil, prepSeg_eq_self (stripPath_head _ hshape)] at hsplit
  have hnosemi : ';' ∉ (urlsplitL (normalizeL l)).path := by
    rw [hsplit]
    intro h
    exact hsemi (stripPath_mem h)
  have hguard : ¬ (usesParams (urlsplitL (normalizeL l)).scheme &&
      decide (';' ∈ (urlsplitL (normalizeL l)).path)) = true := by
    intro h
    exact hnosemi (of_decide_eq_true ((Bool.and_eq_true _ _).mp h).2)
  rw [urlparseL_eq_neg hguard, hsplit]

/-! ### The output of normalizeL is lower-fixed -/

theorem urlsplit_netloc_mem {x : Char} {m : List Char}
    (h : x ∈ (urlsplitL m).netloc) : x ∈ m := by
  rw [urlsplitL_def] at h
  exact sf_mem_fst (schemeSplit_snd_mem (netlocSplit_fst_mem h))

theorem urlsplit_path_mem_in {x : Char} {m : List Char}
    (h : x ∈ (urlsplitL m).path) : x ∈ m := by
  rw [urlsplitL_def] at h
  exact sf_mem_fst (schemeSplit_snd_mem (netlocSplit_snd_mem (sf_mem_fst h)))

theorem urlsplit_query_mem {x : Char} {m : List Char}
    (h : x ∈ (urlsplitL m).query) : x ∈ m := by
  rw [urlsplitL_def] at h
  cases hq : (splitFirst '?'
      (netlocSplit (schemeSplit (splitFirst '#' m).1).2).2).2 with
  | none =>
    rw [hq] at h
    simp at h
  | some b =>
    rw [hq] at h
    exact sf_mem_fst (schemeSplit_snd_mem (netlocSplit_snd_mem (sf_mem_snd hq h)))

/-- Everything in the output of urlunparse comes from a component or is one
of the separator characters. -/
theorem urlunparse_mem {x : Char} {s n p pr q : List Char}
    (h : x ∈ urlunparseL s n p pr q []) :
    x ∈ s ∨ x ∈ n ∨ x ∈ p ∨ x ∈ pr ∨ x ∈ q ∨
      x = ':' ∨ x = '/' ∨ x = '?' ∨ x = ';' := by
  unfold urlunparseL at h
  rw [if_pos (rfl : ([] : List Char) = [])] at h
  have hu1 : ∀ y, y ∈ combineParams p pr → y ∈ p ∨ y = ';' ∨ y ∈ pr :=
    fun y hy => combineParams_mem hy
  have hu2step : ∀ y, y ∈ prepSeg (combineParams p pr) →
      y ∈ p ∨ y = ';' ∨ y ∈ pr ∨ y = '/' := by
    intro y hy
    rcases prepSeg_mem hy with h1 | h1
    · exact Or.inr (Or.inr (Or.inr h1))
    · rcases hu1 y h1 with h2 | h2 | h2
      · exact Or.inl h2
      · exact Or.inr (Or.inl h2)
      · exact Or.inr (Or.inr (Or.inl h2))
  by_cases hb : n ≠ [] ∨ (combineParams p pr ≠ [] ∧
      (combineParams p pr).take 2 = ['/', '/'])
  · rw [if_pos hb] at h
    by_cases hq0 : q = []
    · rw [if_pos hq0] at h
      by_cases hs0 : s = []
      · rw [if_pos hs0] at h
        simp only [List.mem_cons, List.mem_append] at h
        rcases h with h | h | h | h
        · exact Or.inr (Or.inr (Or.inr (Or.inr (Or.inr (Or.inr (Or.inl h))))))
        · exact Or.inr (Or.inr (Or.inr (Or.inr (Or.inr (Or.inr (Or.inl h))))))
        · exact Or.inr (Or.inl h)
        · rcases hu2step x h with h2 | h2 | h2 | h2
          · exact Or.inr (Or.inr (Or.inl h2))
          · exact Or.inr (Or.inr (Or.inr (Or.inr (Or.inr (Or.inr (Or.inr (Or.inr h2)))))))
          · exact Or.inr (Or.inr (Or.inr (Or.inl h2)))
          · exact Or.inr (Or.inr (Or.inr (Or.inr (Or.inr (Or.inr (Or.inl h2))))))
      · rw [if_neg hs0] at h
        rcases List.mem_append.mp h with h | h
        · exact Or.inl h
        · simp only [List.mem_cons, List.mem_append] at h
          rcases h with h | h | h | h | h
          · exact Or.inr (Or.inr (Or.inr (Or.inr (Or.inr (Or.inl h)))))
          · exact Or.inr (Or.inr (Or.inr (Or.inr (Or.inr (Or.inr (Or.inl h))))))
          · exact Or.inr (Or.inr (Or.inr (Or.inr (Or.inr (Or.inr (Or.inl h))))))
          · exact Or.inr (Or.inl h)
          · rcases hu2step x h with h2 | h2 | h2 | h2
            · exact Or.inr (Or.inr (Or.inl h2))
            · exact Or.inr (Or.inr (Or.inr (Or.inr (Or.inr (Or.inr (Or.inr (Or.inr h2)))))))
            · exact Or.inr (Or.inr (Or.inr (Or.inl h2)))
            · exact Or.inr (Or.inr (Or.inr (Or.inr (Or.inr (Or.inr (Or.inl h2))))))
    · rw [if_neg hq0] at h
      rcases List.mem_append.mp h with h | h
      · by_cases hs0 : s = []
        · rw [if_pos hs0] at h
          simp only [List.mem_cons, List.mem_append] at h
          rcases h with h | h | h | h
          · exact Or.inr (Or.inr (Or.inr (Or.inr (Or.inr (Or.inr (Or.inl h))))))
          · exact Or.inr (Or.inr (Or.inr (Or.inr (Or.inr (Or.inr (Or.inl h))))))
          · exact Or.inr (Or.inl h)
          · rcases hu2step x h with h2 | h2 | h2 | h2
            · exact Or.inr (Or.inr (Or.inl h2))
            · exact Or.inr (Or.inr (Or.inr (Or.inr (Or.inr (Or.inr (Or.inr (Or.inr h2)))))))
            · exact Or.inr (Or.inr (Or.inr (Or.inl h2)))
            · exact Or.inr (Or.inr (Or.inr (Or.inr (Or.inr (Or.inr (Or.inl h2))))))
        · rw [if_neg hs0] at h
          rcases List.mem_append.mp h with h | h
          · exact Or.inl h
          · simp only [List.mem_cons, List.mem_append] at h
            rcases h with h | h | h | h | h
            · exact Or.inr (Or.inr (Or.inr (Or.inr (Or.inr (Or.inl h)))))
            · exact Or.inr (Or.inr (Or.inr (Or.inr (Or.inr (Or.inr (Or.inl h))))))
            · exact Or.inr (Or.inr (Or.inr (Or.inr (Or.inr (Or.inr (Or.inl h))))))
            · exact Or.inr (Or.inl h)
            · rcases hu2step x h with h2 | h2 | h2 | h2
              · exact Or.inr (Or.inr (Or.inl h2))
              · exact Or.inr (Or.inr (Or.inr (Or.inr (Or.inr (Or.inr (Or.inr (Or.inr h2)))))))
              · exact Or.inr (Or.inr (Or.inr (Or.inl h2)))
              · exact Or.inr (Or.inr (Or.inr (Or.inr (Or.inr (Or.inr (Or.inl h2))))))
      · rcases List.mem_cons.mp h with h | h
        · exact Or.inr (Or.inr (Or.inr (Or.inr (Or.inr (Or.inr (Or.inr (Or.inl h)))))))
        · exact Or.inr (Or.inr (Or.inr (Or.inr (Or.inl h))))
  · rw [if_neg hb] at h
    by_cases hq0 : q = []
    · rw [if_pos hq0] at h
      by_cases hs0 : s = []
      · rw [if_pos hs0] at h
        rcases hu1 x h with h2 | h2 | h2
        · exact Or.inr (Or.inr (Or.inl h2))
        · exact Or.inr (Or.inr (Or.inr (Or.inr (Or.inr (Or.inr (Or.inr (Or.inr h2)))))))
        · exact Or.inr (Or.inr (Or.inr (Or.inl h2)))
      · rw [if_neg hs0] at h
        rcases List.mem_append.mp h with h | h
        · exact Or.inl h
        · rcases List.mem_cons.mp h with h | h
          · exact Or.inr (Or.inr (Or.inr (Or.inr (Or.inr (Or.inl h)))))
          · rcases hu1 x h with h2 | h2 | h2
            · exact Or.inr (Or.inr (Or.inl h2))
            · exact Or.inr (Or.inr (Or.inr (Or.inr (Or.inr (Or.inr (Or.inr (Or.inr h2)))))))
            · exact Or.inr (Or.inr (Or.inr (Or.inl h2)))
    · rw [if_neg hq0] at h
      rcases List.mem_append.mp h with h | h
      · by_cases hs0 : s = []
        · rw [if_pos hs0] at h
          rcases hu1 x h with h2 | h2 | h2
          · exact Or.inr (Or.inr (Or.inl h2))
          · exact Or.inr (Or.inr (Or.inr (Or.inr (Or.inr (Or.inr (Or.inr (Or.inr h2)))))))
          · exact Or.inr (Or.inr (Or.inr (Or.inl h2)))
        · rw [if_neg hs0] at h
          rcases List.mem_append.mp h with h | h
          · exact Or.inl h
          · rcases List.mem_cons.mp h with h | h
            · exact Or.inr (Or.inr (Or.inr (Or.inr (Or.inr (Or.inl h)))))
            · rcases hu1 x h with h2 | h2 | h2
              · exact Or.inr (Or.inr (Or.inl h2))
              · exact Or.inr (Or.inr (Or.inr (Or.inr (Or.inr (Or.inr (Or.inr (Or.inr h2)))))))
              · exact Or.inr (Or.inr (Or.inr (Or.inl h2)))
      · rcases List.mem_cons.mp h with h | h
        · exact Or.inr (Or.inr (Or.inr (Or.inr (Or.inr (Or.inr (Or.inr (Or.inl h)))))))
        · exact Or.inr (Or.inr (Or.inr (Or.inr (Or.inl h))))

theorem normalize_lowerFixed (l : List Char) : LowerFixed (normalizeL l) := by
  intro x hx
  have hmem := @urlunparse_mem x (urlparseL (lowerL l)).scheme
    (urlparseL (lowerL l)).netloc
    (stripPath (urlparseL (lowerL l)).path)
    (urlparseL (lowerL l)).params
    (urlparseL (lowerL l)).query hx
  have hLFin := lowerFixed_lowerL l
  rcases hmem with h | h | h | h | h | h | h | h | h
  · exact urlsplit_scheme_lowerFixed (lowerL l) x (by rw [← urlparse_scheme]; exact h)
  · exact hLFin x (urlsplit_netloc_mem (by rw [← urlparse_netloc]; exact h))
  · exact hLFin x (urlsplit_path_mem_in (urlparse_path_mem (stripPath_mem h)))
  · exact hLFin x (urlsplit_path_mem_in (lastSeg_mem (urlparse_params_mem h)))
  · exact hLFin x (urlsplit_query_mem (by rw [← urlparse_query]; exact h))
  · rw [h]; decide
  · rw [h]; decide
  · rw [h]; decide
  · rw [h]; decide

/-- Idempotence of normalizeL for accepted URLs whose path carries no
semicolon (so no params are split off on re-parsing). -/
theorem normalize_idem_core (l : List Char) (hv : validFormatL l = true)
    (hsemi : ';' ∉ (urlparseL (lowerL l)).path)
    (hpr : (urlparseL (lowerL l)).params = []) :
    normalizeL (normalizeL l) = normalizeL l := by
  have hlow : lowerL (normalizeL l) = normalizeL l :=
    lowerL_eq_of_lowerFixed (normalize_lowerFixed l)
  have hparse := normalize_parse_eq l hv hsemi hpr
  have hlhs : normalizeL (normalizeL l) =
      urlunparseL (urlparseL (lowerL (normalizeL l))).scheme
        (urlparseL (lowerL (normalizeL l))).netloc
        (stripPath (urlparseL (lowerL (normalizeL l))).path)
        (urlparseL (lowerL (normalizeL l))).params
        (urlparseL (lowerL (normalizeL l))).query [] := rfl
  rw [hlow, hparse] at hlhs
  rw [hlhs]
  dsimp only
  rw [stripPath_idem]
  have hrhs : normalizeL l =
      urlunparseL (urlparseL (lowerL l)).scheme (urlparseL (lowerL l)).netloc
        (stripPath (urlparseL (lowerL l)).path) (urlparseL (lowerL l)).params
        (urlparseL (lowerL l)).query [] := rfl
  rw [hrhs, hpr]

/-- Lowercasing the input never changes the fingerprint. -/
theorem normalize_lower_eq (l : List Char) : normalizeL (lowerL l) = normalizeL l := by
  unfold normalizeL
  rw [lowerL_idem]

/-! ### Queue lemmas -/

theorem find?_map_update {id : Nat} {f : Job → Job} {j : Job}
    (hf : ∀ x, (f x).job_id = x.job_id) :
    ∀ (jobs : List Job),
      jobs.find? (fun x => decide (x.job_id = id)) = some j →
      (jobs.map (fun x => if x.job_id = id then f x else x)).find?
          (fun x => decide (x.job_id = id)) = some (f j) := by
  intro jobs
  induction jobs with
  | nil => intro h; simp at h
  | cons a t ih =>
    intro h
    by_cases ha : a.job_id = id
    · rw [List.find?_cons_of_pos _ (by simp [ha])] at h
      cases h
      rw [List.map_cons, if_pos ha,
        List.find?_cons_of_pos _ (by simp [hf, ha])]
    · rw [List.find?_cons_of_neg _ (by simp [ha])] at h
      rw [List.map_cons, if_neg ha, List.find?_cons_of_neg _ (by simp [ha])]
      exact ih h

/-- get_job after updateJob at the same id yields the updated row. -/
theorem get_job_update {db : DB} {id : Nat} {f : Job → Job} {j : Job}
    (hf : ∀ x, (f x).job_id = x.job_id) (h : get_job db id = some j) :
    get_job (updateJob db id f) id = some (f j) := by
  unfold get_job at h
  unfold get_job updateJob
  exact find?_map_update hf db.jobs h

theorem updateJob_locks (db : DB) (id : Nat) (f : Job → Job) :
    (updateJob db id f).locks = db.locks := rfl

/-! ## Claim theorems -/

/-- C1 counterexample: the claim states the worker requeues a retryable
failure iff attempts < max_retries + 1, but for a job with attempts = 2 and
max_retries = 2 and the retryable code RENDER_FAILED, should_retry is false
although 2 < 2 + 1: the biconditional fails at this input. -/
theorem claim_C1_cex :
    ¬ (should_retry jobTwoAttempts (some "RENDER_FAILED") = true ↔
      jobTwoAttempts.attempts < jobTwoAttempts.max_retries + 1) := by
  decide

/-- C1 (amended): for every job and retryable error code, the worker decides
to requeue iff attempts < max_retries (not max_retries + 1); with
max_retries = 2 a job is permitted up to 2 total runs. -/
theorem claim_C1 (j : Job) (c : String) (hc : non_retryable.contains c = false) :
    should_retry j (some c) = true ↔ j.attempts < j.max_retries := by
  simp [should_retry, hc]
  intro h
  simpa using hc

/-- C1 witness: the amended rule applied to a job after its first run with a
retryable JOB_TIMEOUT failure. -/
theorem claim_C1_witness :
    non_retryable.contains "JOB_TIMEOUT" = false ∧
      (should_retry jobOneAttempt (some "JOB_TIMEOUT") = true ↔
        jobOneAttempt.attempts < jobOneAttempt.max_retries) :=
  ⟨by decide, claim_C1 jobOneAttempt "JOB_TIMEOUT" (by decide)⟩

/-- C2 fails on the code: after submit, claim and a successful complete, the
job is SUCCEEDED, yet requeue_job mutates it back to QUEUED instead of being
a no-op; the source only checks existence, not RUNNING status. -/
theorem claim_C2_requeue_mutates_terminal :
    (get_job dbB3 0).map Job.status = some JobStatus.succeeded ∧
      requeue_job dbB3 0 ≠ dbB3 ∧
      (get_job (requeue_job dbB3 0) 0).map Job.status = some JobStatus.queued := by
  decide

/-- C3 fails on the code: in the reachable state dbA5 (job 1 RUNNING and
holding the only domain lock) the invariant holds, but calling complete_job
on the already-SUCCEEDED job 0 of the same domain deletes job 1's lock,
leaving a RUNNING job with no lock. -/
theorem claim_C3_lock_invariant_broken :
    lockInvariant dbA5 ∧
      ¬ lockInvariant (complete_job dbA5 0 true none none 5) ∧
      (get_job (complete_job dbA5 0 true none none 5) 1).map Job.status =
        some JobStatus.running ∧
      (complete_job dbA5 0 true none none 5).locks = [] := by
  decide

/-- C4: a second submit of the same URL on the same UTC day returns the very
same job row with the deduplicated flag set and leaves the store unchanged. -/
theorem claim_C4
    (resolver : List Char → List (List Char)) (psl : List Char → Option (List Char))
    (db : DB) (url : String) (rm1 rm2 : Option String)
    (nv1 jt1 wt1 mr1 nv2 jt2 wt2 mr2 : Option Nat) (md1 md2 : Option String)
    (now1 now2 : Int) (today : List Char) (j : Job) (db2 : DB)
    (h : create_job resolver psl db url rm1 nv1 jt1 wt1 mr1 md1 now1 today =
      Except.ok (j, false, db2)) :
    create_job resolver psl db2 url rm2 nv2 jt2 wt2 mr2 md2 now2 today =
      Except.ok (j, true, db2) := by
  simp only [create_job] at h ⊢
  cases hv1 : validate_url_format url with
  | error e =>
    rw [hv1] at h
    simp at h
  | ok u =>
    rw [hv1] at h
    cases hv2 : validate_ssrf resolver url with
    | error e =>
      rw [hv2] at h
      simp at h
    | ok u2 =>
      rw [hv2] at h
      cases hv3 : extract_main_domain psl url with
      | error e =>
        rw [hv3] at h
        simp at h
      | ok md =>
        rw [hv3] at h
        cases hf : db.jobs.find? (fun jb =>
            decide (jb.normalized_url = normalizeL url.data ∧
              jb.submission_date = today)) with
        | some ex =>
          rw [hf] at h
          simp at h
        | none =>
          rw [hf] at h
          simp only [Except.ok.injEq, Prod.mk.injEq] at h
          obtain ⟨hj, -, hdb⟩ := h
          have h1 : j.normalized_url = normalizeL url.data := by rw [← hj]
          have h2 : j.submission_date = today := by rw [← hj]
          rw [← hdb, hj]
          simp only [List.find?_append, hf, Option.none_or]
          have hfind : List.find? (fun jb =>
              decide (jb.normalized_url = normalizeL url.data ∧
                jb.submission_date = today)) [j] = some j := by
            simp [h1, h2]
          rw [hfind]

/-- C4 witness: submitting https://example.com/test twice on the same day
returns the same row, with deduplicated = true and an unchanged store. -/
theorem claim_C4_witness :
    create_job noResolver noPsl emptyDB "https://example.com/test" none none none
        none none none 0 today0 = Except.ok (jobW4, false, dbW4) ∧
      create_job noResolver noPsl dbW4 "https://example.com/test" none none none
        none none none 1 today0 = Except.ok (jobW4, true, dbW4) :=
  ⟨rfl, claim_C4 noResolver noPsl emptyDB "https://example.com/test" none none
    none none none none none none none none none none 0 1 today0 jobW4 dbW4 rfl⟩

/-- C5: when claim_next_job selects a candidate, then (a) if the domain lock
is held and the wait exceeds max_domain_wait_seconds the job is failed with
DOMAIN_WAIT_TIMEOUT and finished_at = now and nothing is returned, (b) if
the lock is held within the budget the job is moved to WAITING_DOMAIN_LOCK
and nothing is returned, and (c) if no lock exists a lock row is inserted
and the job returns RUNNING with started_at = now and attempts + 1. -/
theorem claim_C5 (db : DB) (now : Int) (j : Job)
    (hsel : selectCandidate db = some j)
    (hget : get_job db j.job_id = some j) :
    ((∀ l, findLock db j.main_domain = some l →
        now - j.created_at > (j.max_domain_wait_seconds : Int) →
        (claim_next_job db now).1 = none ∧
        get_job (claim_next_job db now).2 j.job_id =
          some { j with status := JobStatus.failed,
                        error_code := some "DOMAIN_WAIT_TIMEOUT",
                        error_message :=
                          some (domainWaitMessage j.max_domain_wait_seconds),
                        finished_at := some now } ∧
        (claim_next_job db now).2.locks = db.locks) ∧
      (∀ l, findLock db j.main_domain = some l →
        ¬ now - j.created_at > (j.max_domain_wait_seconds : Int) →
        (claim_next_job db now).1 = none ∧
        get_job (claim_next_job db now).2 j.job_id =
          some { j with status := JobStatus.waiting_domain_lock } ∧
        (claim_next_job db now).2.locks = db.locks) ∧
      (findLock db j.main_domain = none →
        (claim_next_job db now).1 =
          some { j with status := JobStatus.running, started_at := some now,
                        attempts := j.attempts + 1 } ∧
        get_job (claim_next_job db now).2 j.job_id =
          some { j with status := JobStatus.running, started_at := some now,
                        attempts := j.attempts + 1 } ∧
        (claim_next_job db now).2.locks =
          db.locks ++ [{ main_domain := j.main_domain, job_id := j.job_id,
                         locked_at := now,
                         max_wait_seconds := j.max_domain_wait_seconds }]) ) := by
  refine ⟨?_, ?_, ?_⟩
  · intro l hlock htime
    unfold claim_next_job
    rw [hsel]
    dsimp only
    rw [hlock, if_pos htime]
    refine ⟨rfl, ?_, rfl⟩
    exact get_job_update (fun x => rfl) hget
  · intro l hlock htime
    unfold claim_next_job
    rw [hsel]
    dsimp only
    rw [hlock, if_neg htime]
    by_cases hst : j.status ≠ JobStatus.waiting_domain_lock
    · rw [if_pos hst]
      refine ⟨rfl, ?_, rfl⟩
      exact get_job_update (fun x => rfl) hget
    · rw [if_neg hst]
      have hst2 : j.status = JobStatus.waiting_domain_lock := not_not.mp hst
      have hjeq : ({ j with status := JobStatus.waiting_domain_lock } : Job) = j := by
        cases j
        simp only at hst2
        rw [← hst2]
      exact ⟨rfl, by rw [hjeq]; exact hget, rfl⟩
  · intro hlock
    unfold claim_next_job
    rw [hsel]
    dsimp only
    rw [hlock]
    refine ⟨rfl, ?_, rfl⟩
    exact get_job_update (fun x => rfl) hget

/-- C5 witness: claiming from a store with one queued job and no locks
returns it RUNNING with attempts 1 and inserts its domain lock. -/
theorem claim_C5_witness :
    (claim_next_job dbW4 5).1 =
      some { jobW4 with status := JobStatus.running, started_at := some 5,
                        attempts := jobW4.attempts + 1 } ∧
      (claim_next_job dbW4 5).2.locks =
        dbW4.locks ++ [{ main_domain := jobW4.main_domain, job_id := jobW4.job_id,
                         locked_at := 5,
                         max_wait_seconds := jobW4.max_domain_wait_seconds }] := by
  have h := (claim_C5 dbW4 5 jobW4 (by decide) (by decide)).2.2 (by decide)
  exact ⟨h.1, h.2.2⟩

/-- C6 fails on the code: the hostname internal.example resolves (through
the abstracted resolver) to the private address 10.0.0.1, yet validate_ssrf
accepts the URL because the SSRFError raised in the resolution loop is
swallowed by the generic exception handler, and create_job inserts a row. -/
theorem claim_C6_resolver_swallowed :
    is_private_ip "10.0.0.1".data = true ∧
      resolverC6 "internal.example".data = ["10.0.0.1".data] ∧
      validate_ssrf resolverC6 "http://internal.example/" = Except.ok () ∧
      dbC6.jobs.length = 1 :=
  ⟨by decide, rfl, rfl, by decide⟩

/-- C7 counterexample: a path ending in "//" loses both slashes, not exactly
one; the claim would require ".../a/" but the code produces ".../a". -/
theorem claim_C7_cex :
    normalize_url "http://example.com/a//" = "http://example.com/a" ∧
      normalize_url "http://example.com/a//" ≠ "http://example.com/a/" := by
  exact ⟨rfl, by decide⟩

/-- C7 (amended): for an accepted URL whose lowercased path carries no ';',
the path of the re-parsed normalized URL is the original path with ALL
trailing slashes removed (unless the path is exactly "/"). -/
theorem claim_C7 (l : List Char) (hv : validFormatL l = true)
    (hsemi : ';' ∉ (urlparseL (lowerL l)).path)
    (hpr : (urlparseL (lowerL l)).params = []) :
    (urlparseL (normalizeL l)).path = stripPath (urlparseL (lowerL l)).path := by
  rw [normalize_parse_eq l hv hsemi hpr]

/-- C7 witness: the amended statement evaluated on http://example.com/a// . -/
theorem claim_C7_witness :
    validFormatL "http://example.com/a//".data = true ∧
      (urlparseL (normalizeL "http://example.com/a//".data)).path =
        stripPath (urlparseL (lowerL "http://example.com/a//".data)).path :=
  ⟨by decide, claim_C7 "http://example.com/a//".data (by decide) (by decide)
    (by decide)⟩

/-- C8 counterexample: the query string is not preserved verbatim, because
normalize_url lowercases the whole URL first: ?A=1 becomes ?a=1. -/
theorem claim_C8_cex :
    validFormatL "http://example.com/p?A=1".data = true ∧
      (urlparseL (normalizeL "http://example.com/p?A=1".data)).query ≠
        (urlparseL "http://example.com/p?A=1".data).query := by
  decide

/-- C8 (amended): normalize_url preserves the query of the lowercased URL
verbatim (order-preserving, no sorting), and two accepted URLs whose
lowercased queries differ produce distinct fingerprints - in particular two
URLs differing only in query-parameter order. -/
theorem claim_C8 :
    (∀ l, validFormatL l = true →
        (urlparseL (normalizeL l)).query = (urlparseL (lowerL l)).query) ∧
      (∀ l1 l2, validFormatL l1 = true → validFormatL l2 = true →
        (urlparseL (lowerL l1)).query ≠ (urlparseL (lowerL l2)).query →
        normalizeL l1 ≠ normalizeL l2) := by
  have hq : ∀ l, validFormatL l = true →
      (urlparseL (normalizeL l)).query = (urlparseL (lowerL l)).query := by
    intro l hv
    rw [urlparse_query, normalize_reparse l hv]
  refine ⟨hq, ?_⟩
  intro l1 l2 h1 h2 hne he
  apply hne
  rw [← hq l1 h1, ← hq l2 h2, he]

/-- C8 witness: query preservation on ?b=2&a=1, and distinct fingerprints
for the two parameter orders of a=1, b=2. -/
theorem claim_C8_witness :
    ((urlparseL (normalizeL "http://e.com/p?b=2&a=1".data)).query =
        (urlparseL (lowerL "http://e.com/p?b=2&a=1".data)).query) ∧
      normalizeL "http://e.com/p?a=1&b=2".data ≠
        normalizeL "http://e.com/p?b=2&a=1".data :=
  ⟨claim_C8.1 "http://e.com/p?b=2&a=1".data (by decide),
   claim_C8.2 "http://e.com/p?a=1&b=2".data "http://e.com/p?b=2&a=1".data
     (by decide) (by decide) (by decide)⟩

/-- C9 counterexample: normalize_url is not idempotent on the accepted URL
http://n/a;/ - the first pass yields http://n/a; and the second http://n/a. -/
theorem claim_C9_cex :
    validFormatL "http://n/a;/".data = true ∧
      normalize_url (normalize_url "http://n/a;/") ≠ normalize_url "http://n/a;/" := by
  decide

/-- C9 (amended): normalize(normalize u) = normalize u for every URL accepted
by the format validator whose lowercased path contains no ';'; lowercasing
the input never changes the fingerprint. -/
theorem claim_C9 :
    (∀ l, validFormatL l = true → ';' ∉ (urlparseL (lowerL l)).path →
        (urlparseL (lowerL l)).params = [] →
        normalizeL (normalizeL l) = normalizeL l) ∧
      (∀ l, normalizeL (lowerL l) = normalizeL l) :=
  ⟨normalize_idem_core, normalize_lower_eq⟩

/-- C9 witness: idempotence on HTTP://Example.COM/Path/ and case invariance
on HTTP://Q.com/A . -/
theorem claim_C9_witness :
    normalizeL (normalizeL "HTTP://Example.COM/Path/".data) =
        normalizeL "HTTP://Example.COM/Path/".data ∧
      normalizeL (lowerL "HTTP://Q.com/A".data) = normalizeL "HTTP://Q.com/A".data :=
  ⟨claim_C9.1 "HTTP://Example.COM/Path/".data (by decide) (by decide) (by decide),
   claim_C9.2 "HTTP://Q.com/A".data⟩

/-- C10: create_job replaces every falsy override (None, 0, empty string) of
the configuration snapshot fields with the configured default; in particular
an explicit max_retries = 0 yields the default 2. -/
theorem claim_C10
    (resolver : List Char → List (List Char)) (psl : List Char → Option (List Char))
    (db : DB) (url : String) (rm1 : Option String)
    (nv1 jt1 wt1 mr1 : Option Nat) (md1 : Option String)
    (now1 : Int) (today : List Char) (j : Job) (db2 : DB)
    (h : create_job resolver psl db url rm1 nv1 jt1 wt1 mr1 md1 now1 today =
      Except.ok (j, false, db2)) :
    j.max_retries = pyOrNat mr1 default_max_retries ∧
      (mr1 = some 0 → j.max_retries = 2) ∧
      j.render_mode = pyOrStr rm1 default_render_mode ∧
      (rm1 = some "" → j.render_mode = "print_to_pdf") ∧
      j.navigation_timeout_seconds = pyOrNat nv1 default_navigation_timeout_seconds ∧
      (nv1 = some 0 → j.navigation_timeout_seconds = 45) ∧
      j.job_timeout_seconds = pyOrNat jt1 default_job_timeout_seconds ∧
      (jt1 = some 0 → j.job_timeout_seconds = 120) ∧
      j.max_domain_wait_seconds = pyOrNat wt1 default_max_domain_wait_seconds ∧
      (wt1 = some 0 → j.max_domain_wait_seconds = 600) := by
  simp only [create_job] at h
  cases hv1 : validate_url_format url with
  | error e => rw [hv1] at h; simp at h
  | ok u =>
    rw [hv1] at h
    cases hv2 : validate_ssrf resolver url with
    | error e => rw [hv2] at h; simp at h
    | ok u2 =>
      rw [hv2] at h
      cases hv3 : extract_main_domain psl url with
      | error e => rw [hv3] at h; simp at h
      | ok md =>
        rw [hv3] at h
        cases hf : db.jobs.find? (fun jb =>
            decide (jb.normalized_url = normalizeL url.data ∧
              jb.submission_date = today)) with
        | some ex => rw [hf] at h; simp at h
        | none =>
          rw [hf] at h
          simp only [Except.ok.injEq, Prod.mk.injEq] at h
          obtain ⟨hj, -, -⟩ := h
          refine ⟨by rw [← hj], ?_, by rw [← hj], ?_, by rw [← hj], ?_,
            by rw [← hj], ?_, by rw [← hj], ?_⟩
          · intro he
            rw [← hj, he]
            rfl
          · intro he
            rw [← hj, he]
            rfl
          · intro he
            rw [← hj, he]
            rfl
          · intro he
            rw [← hj, he]
            rfl
          · intro he
            rw [← hj, he]
            rfl

/-- C10 witness: submitting with an explicit max_retries = 0 produces a job
whose max_retries is the default 2. -/
theorem claim_C10_witness :
    create_job noResolver noPsl emptyDB "https://example.com/test" none none none
        none (some 0) none 0 today0 = Except.ok (jobW4, false, dbW4) ∧
      jobW4.max_retries = 2 :=
  ⟨rfl, (claim_C10 noResolver noPsl emptyDB "https://example.com/test" none none
    none none (some 0) none 0 today0 jobW4 dbW4 rfl).2.1 rfl⟩

end AW
